import Mathlib

/-! # Ladybug SDK samples: PNM reader, option parser, ray/sphere projection, frame rate,
bitmap writer and the SDK call sequences of three programs

A shallow embedding of the self-contained logic of the repository:

* `pgrpnmio.cpp`   – the PGM/PPM header parser and pixel readers,
* `getopt.c`       – `GetOption`,
* `LadybugTranslate2dTo3d.cpp` – `mapOntoSphere` and the camera-local step of
  `manualTranslation`,
* `ladybugStreamCopy.cpp` – the call sequence of `main`,
* `PGRFrameRate.cpp` – `newFrame`,
* `PGRBitmap.cpp` – the writes of `saveImageToBMP`,
* `ladybugOutput3DMesh.cpp` – the call sequence of `main`,
* `LadybugRecorderConsole.cpp` – the call sequence of `GrabLoop`.

A `FILE*` opened for reading is modelled by the list of bytes that have not
been consumed yet; a C string is the list of its bytes without the final NUL;
a buffer is a list of cells that is updated functionally.
-/

namespace Ladybug

/-! ## Bytes, strings and streams -/

/-- A `FILE*` opened for reading: the bytes that are still to be read. -/
abbrev Stream := List Nat

/-- The bytes of a string literal (used to write concrete inputs). -/
def str (s : String) : List Nat := s.toList.map Char.toNat

/-- The C function `fgetc`: the next byte, or `none` for `EOF`. -/
def fgetc (s : Stream) : Option Nat × Stream :=
  match s with
  | [] => (none, [])
  | c :: t => (some c, t)

/-- The C function `ungetc`: pushes one byte back; pushing `EOF` back does nothing. -/
def ungetc (ch : Option Nat) (s : Stream) : Stream :=
  match ch with
  | none => s
  | some c => c :: s

/-- The C function `isspace` in the "C" locale: space, `\t`, `\n`, `\v`, `\f`, `\r`. -/
def isspace (c : Nat) : Bool := c == 32 || (9 ≤ c && c ≤ 13)

/-- The C function `isdigit`. -/
def isdigit (c : Nat) : Bool := 48 ≤ c && c ≤ 57

/-- The C function `fread (data, size, count, stream)`: copies up to `size * count` bytes
to the front of `data`; returns the number of complete items, the buffer and the stream. -/
def fread (data : List Nat) (size count : Nat) (s : Stream) : Nat × List Nat × Stream :=
  let got := s.take (size * count)
  (got.length / size, got ++ data.drop got.length, s.drop (size * count))

/-- The C function `fgets (tmp, n, stream)`: reads at most `n - 1` bytes, stopping after a
newline; returns the bytes read and the stream. -/
def fgets : Nat → Stream → List Nat × Stream
  | 0, s => ([], s)
  | 1, s => ([], s)
  | _ + 1, [] => ([], [])
  | n + 1, c :: t =>
    if c = 10 then ([c], t)
    else ((c :: (fgets n t).1), (fgets n t).2)

/-! ## pgrpnmio.cpp : tokens -/

/-- The loop of `eatComment`, entered with the byte `ch` just read:
`while( ch != '\n' ) { ch = fgetc( stream ); if ( ch == EOF ) return false; }`.
The two equations are the cases of `fgetc` at the end of the file and before it. -/
def eatCommentLoop : Option Nat → Stream → Bool × Stream
  | ch, [] => if ch = some 10 then (true, []) else (false, [])
  | ch, c :: t => if ch = some 10 then (true, c :: t) else eatCommentLoop (some c) t

/-- Function `eatComment`: removes all bytes up to and including the next newline; `false` when the
end of file comes first. -/
def eatComment (s : Stream) : Bool × Stream :=
  eatCommentLoop (fgetc s).1 (fgetc s).2

/-- The first loop of `getToken`, entered with the byte `ch` just read: skips white space
and comments.  Returns the first byte of the token and the stream after it, or `none` where
the source returns 0 (end of file before a token, or inside a comment).  Every round
consumes a byte, so `fuel` larger than the length of the stream is never used up. -/
def getTokenSkip : Nat → Option Nat → Stream → Option (Nat × Stream)
  | 0, _, _ => none
  | fuel + 1, ch, s =>
    match ch with
    | none => none
    | some c =>
      if isspace c then getTokenSkip fuel (fgetc s).1 (fgetc s).2
      else if c = 35 then
        if (eatComment s).1 then
          getTokenSkip fuel (fgetc (eatComment s).2).1 (fgetc (eatComment s).2).2
        else none
      else some (c, s)

/-- The second loop of `getToken`, entered with the byte `c` just read (not `EOF`):
`while( ch != EOF && !isspace( ch ) ) { buf[i++] = ch; if ( i >= buflen-1 ) return 0; ch = fgetc( stream ); }`.
Returns the bytes stored in `buf` and the stream, or `none` where the source returns 0.
The two equations are the cases of `fgetc` at the end of the file and before it. -/
def getTokenRead (buflen : Nat) : Nat → Stream → List Nat → Option (List Nat × Stream)
  | c, [], buf =>
    if isspace c then some (buf, [])
    else if buflen ≤ (buf ++ [c]).length + 1 then none
    else some (buf ++ [c], [])
  | c, c1 :: t, buf =>
    if isspace c then some (buf, c1 :: t)
    else if buflen ≤ (buf ++ [c]).length + 1 then none
    else getTokenRead buflen c1 t (buf ++ [c])

/-- Function `getToken`: a whitespace delineated token.  `none` stands for the return value 0;
otherwise the token (its length is the return value) and the stream. -/
def getToken (s : Stream) (buflen : Nat) : Option (List Nat × Stream) :=
  match getTokenSkip (s.length + 1) (fgetc s).1 (fgetc s).2 with
  | none => none
  | some (c, s1) =>
    match getTokenRead buflen c s1 [] with
    | none => none
    | some (buf, s2) => if buf.length = 0 then none else some (buf, s2)

/-- The digits at the front of a string, accumulated in base ten. -/
def atoiDigits : Nat → List Nat → Nat
  | acc, [] => acc
  | acc, c :: t => if isdigit c then atoiDigits (acc * 10 + (c - 48)) t else acc

/-- Wraps an integer into the range of a 32-bit `int`. -/
def toInt32 (v : Int) : Int := (v + 2147483648) % 4294967296 - 2147483648

/-- The sign and digits part of `atoi`. -/
def atoiSigned : List Nat → Int
  | [] => 0
  | c :: t =>
    if c = 45 then - (atoiDigits 0 t : Int)
    else if c = 43 then (atoiDigits 0 t : Int)
    else (atoiDigits 0 (c :: t) : Int)

/-- The C function `atoi`: leading white space, an optional sign, decimal digits.  A value
outside the range of `int` is undefined in C; here it wraps. -/
def atoi (buf : List Nat) : Int :=
  toInt32 (atoiSigned (buf.dropWhile isspace))

/-- Function `getInt`: a whitespace delineated integer; fails on a missing token and on the value 0. -/
def getInt (s : Stream) : Option (Int × Stream) :=
  match getToken s 512 with
  | none => none
  | some (buf, s1) => if atoi buf = 0 then none else some (atoi buf, s1)

/-- The C function `strtol (buf, &endptr, 10)` for a value in the range of `long`: the
value and the unparsed rest of `buf`. -/
def strtol (buf : List Nat) : Int × List Nat :=
  let b := buf.dropWhile isspace
  match b with
  | 45 :: t =>
    if (t.takeWhile isdigit).length = 0 then (0, buf)
    else (- (atoiDigits 0 t : Int), t.dropWhile isdigit)
  | 43 :: t =>
    if (t.takeWhile isdigit).length = 0 then (0, buf)
    else ((atoiDigits 0 t : Int), t.dropWhile isdigit)
  | t =>
    if (t.takeWhile isdigit).length = 0 then (0, buf)
    else ((atoiDigits 0 t : Int), t.dropWhile isdigit)

/-- Function `getByte`: a whitespace delineated integer stored as `unsigned char`. -/
def getByte (s : Stream) : Option (Nat × Stream) :=
  match getToken s 512 with
  | none => none
  | some (buf, s1) =>
    if (strtol buf).2 ≠ [] then none
    else some (((strtol buf).1 % 256).toNat, s1)

/-- Function `getShort`: `*val = (unsigned char) atoi( buf ); if ( !*val ) return false;`. -/
def getShort (s : Stream) : Option (Nat × Stream) :=
  match getToken s 512 with
  | none => none
  | some (buf, s1) =>
    if ((atoi buf) % 256).toNat = 0 then none
    else some (((atoi buf) % 256).toNat, s1)

/-! ## pgrpnmio.cpp : header -/

/-- The loop `while ( isspace( ch ) && ch != EOF ) ch = fgetc( stream );` of `getComment`,
entered with the byte `ch` just read.  The last two equations are the cases of `fgetc` at
the end of the file and before it. -/
def skipSpace : Option Nat → Stream → Option Nat × Stream
  | none, s => (none, s)
  | some c, [] => if isspace c then (none, []) else (some c, [])
  | some c, c1 :: t => if isspace c then skipSpace (some c1) t else (some c, c1 :: t)

/-- The loop `while (!done)` of `getComment`, entered with the byte `ch` just read, the
text collected so far and `foundComment`: a byte other than `#` is pushed back and ends the
loop; after a `#` the rest of the line is read with `fgets( tmp, 250, stream )` and the
white space behind it is passed.  A round that goes on consumes a byte, so `fuel` larger
than the length of the stream is never used up. -/
def getCommentLoop : Nat → Option Nat → Stream → List Nat → Bool → Bool × List Nat × Stream
  | 0, ch, s, text, found => (found, text, ungetc ch s)
  | fuel + 1, ch, s, text, found =>
    if ch ≠ some 35 then (found, text, ungetc ch s)
    else
      getCommentLoop fuel
        (skipSpace (fgetc (fgets 250 s).2).1 (fgetc (fgets 250 s).2).2).1
        (skipSpace (fgetc (fgets 250 s).2).1 (fgetc (fgets 250 s).2).2).2
        (text ++ (fgets 250 s).1) true

/-- Function `getComment`: with no buffer (`szComment == NULL`, here `false`) nothing is read;
otherwise the white space and the comment lines in front of the next token are read and the
first byte after them is pushed back.  Returns `foundComment`, the text and the stream. -/
def getComment (s : Stream) (szComment : Bool) : Bool × List Nat × Stream :=
  if szComment = false then (true, [], s)
  else
    getCommentLoop (s.length + 1)
      (skipSpace (fgetc s).1 (fgetc s).2).1 (skipSpace (fgetc s).1 (fgetc s).2).2 [] false

/-- The values a header parser hands back. -/
structure Header where
  nrows : Int
  ncols : Int
  maxval : Int
  ascii : Bool
  deriving DecidableEq

/-- Function `parsePGMHeader`: magic `P2`/`P5`, then `ncols`, `nrows`, `maxval`. -/
def parsePGMHeader (s : Stream) (szComment : Bool) : Option (Header × Stream) :=
  match fgetc s with
  | (some 80, s1) =>
    match fgetc s1 with
    | (some ch, s2) =>
      if ch = 50 ∨ ch = 53 then
        match getInt (getComment s2 szComment).2.2 with
        | none => none
        | some (ncols, s3) =>
          match getInt s3 with
          | none => none
          | some (nrows, s4) =>
            match getInt s4 with
            | none => none
            | some (maxval, s5) => some (⟨nrows, ncols, maxval, ch = 50⟩, s5)
      else none
    | _ => none
  | _ => none

/-- Function `parsePPMHeader`: magic `P3`/`P6`, then `ncols`, `nrows`, `maxval`. -/
def parsePPMHeader (s : Stream) (szComment : Bool) : Option (Header × Stream) :=
  match fgetc s with
  | (some 80, s1) =>
    match fgetc s1 with
    | (some ch, s2) =>
      if ch = 51 ∨ ch = 54 then
        match getInt (getComment s2 szComment).2.2 with
        | none => none
        | some (ncols, s3) =>
          match getInt s3 with
          | none => none
          | some (nrows, s4) =>
            match getInt s4 with
            | none => none
            | some (maxval, s5) => some (⟨nrows, ncols, maxval, ch = 51⟩, s5)
      else none
    | _ => none
  | _ => none

/-! ## pgrpnmio.cpp : pixel data

The dimensions are the natural numbers `nrows` and `ncols` (a header with a negative
dimension is outside these readers); a buffer is the list of its cells.  A reader returns
its `bool`, the buffer and the stream; after `false` the callers drop both. -/

/-- Function `readPGM8BinaryData`: one `fread` of `nrows*ncols` bytes, checked. -/
def readPGM8BinaryData (s : Stream) (nrows ncols : Nat) (data : List Nat) :
    Bool × List Nat × Stream :=
  if nrows * ncols ≠ (fread data 1 (nrows * ncols) s).1 then
    (false, (fread data 1 (nrows * ncols) s).2)
  else (true, (fread data 1 (nrows * ncols) s).2)

/-- The inner loop of `readPGM8AsciiData` with `n` columns to go; `i` is the offset of the
running pointer `data++`. -/
def readPGM8AsciiCols : Nat → Stream → Nat → List Nat → Bool × Nat × List Nat × Stream
  | 0, s, i, data => (true, i, data, s)
  | n + 1, s, i, data =>
    match getByte s with
    | none => (false, i, data, s)
    | some (v, s1) => readPGM8AsciiCols n s1 (i + 1) (data.set i v)

/-- The outer loop of `readPGM8AsciiData` with `n` rows to go. -/
def readPGM8AsciiRows (ncols : Nat) : Nat → Stream → Nat → List Nat → Bool × List Nat × Stream
  | 0, s, _, data => (true, data, s)
  | n + 1, s, i, data =>
    match readPGM8AsciiCols ncols s i data with
    | (false, _, d, s1) => (false, d, s1)
    | (true, i1, d, s1) => readPGM8AsciiRows ncols n s1 i1 d

/-- Function `readPGM8AsciiData`: `nrows*ncols` tokens read by `getByte` into `data++`. -/
def readPGM8AsciiData (s : Stream) (nrows ncols : Nat) (data : List Nat) :
    Bool × List Nat × Stream :=
  readPGM8AsciiRows ncols nrows s 0 data

/-- The body of the loops of `readPPM8BinaryPacked` for the pixel `ptr`:
`data[ptr*4+0] = data[ptr*3+2]; data[ptr*4+1] = data[ptr*3+1]; data[ptr*4+2] = data[ptr*3+0];`
one assignment after the other, in place, each reading the buffer as the assignments
before it have left it. -/
def packPixel (data : List Nat) (ptr : Nat) : List Nat :=
  let d1 := data.set (ptr * 4 + 0) (data.getD (ptr * 3 + 2) 0)
  let d2 := d1.set (ptr * 4 + 1) (d1.getD (ptr * 3 + 1) 0)
  d2.set (ptr * 4 + 2) (d2.getD (ptr * 3 + 0) 0)

/-- The inner loop `for ( col = ncols - 1; col >= 0; col-- )` with the columns below `n`
still to do. -/
def packCols (ncols row : Nat) : Nat → List Nat → List Nat
  | 0, data => data
  | n + 1, data => packCols ncols row n (packPixel data (row * ncols + n))

/-- The outer loop `for ( row = nrows - 1; row >= 0; row-- )` with the rows below `n`
still to do. -/
def packRows (ncols : Nat) : Nat → List Nat → List Nat
  | 0, data => data
  | n + 1, data => packRows ncols n (packCols ncols n ncols data)

/-- Function `readPPM8BinaryPacked`: one unchecked `fread` of three items of `nrows*ncols`
bytes to the front of `data`, then the in-place spreading of the 3-byte pixels to 4-byte
cells, last pixel first.  It returns `true` on every path. -/
def readPPM8BinaryPacked (s : Stream) (nrows ncols : Nat) (data : List Nat) :
    Bool × List Nat × Stream :=
  (true, packRows ncols nrows (fread data (nrows * ncols) 3 s).2.1,
    (fread data (nrows * ncols) 3 s).2.2)

/-- The inner loop of `readPPM8AsciiPacked` with `n` columns to go; `i` is the offset of
the running pointer (`data += 4`). -/
def readPPM8AsciiPackedCols : Nat → Stream → Nat → List Nat → Bool × Nat × List Nat × Stream
  | 0, s, i, data => (true, i, data, s)
  | n + 1, s, i, data =>
    match getByte s with
    | none => (false, i, data, s)
    | some (r, s1) =>
      match getByte s1 with
      | none => (false, i, data.set (i + 2) r, s1)
      | some (g, s2) =>
        match getByte s2 with
        | none => (false, i, (data.set (i + 2) r).set (i + 1) g, s2)
        | some (b, s3) =>
          readPPM8AsciiPackedCols n s3 (i + 4)
            (((data.set (i + 2) r).set (i + 1) g).set (i + 0) b)

/-- The outer loop of `readPPM8AsciiPacked` with `n` rows to go. -/
def readPPM8AsciiPackedRows (ncols : Nat) :
    Nat → Stream → Nat → List Nat → Bool × List Nat × Stream
  | 0, s, _, data => (true, data, s)
  | n + 1, s, i, data =>
    match readPPM8AsciiPackedCols ncols s i data with
    | (false, _, d, s1) => (false, d, s1)
    | (true, i1, d, s1) => readPPM8AsciiPackedRows ncols n s1 i1 d

/-- Function `readPPM8AsciiPacked`: three `getByte` per pixel into `data+2`, `data+1`,
`data+0`. -/
def readPPM8AsciiPacked (s : Stream) (nrows ncols : Nat) (data : List Nat) :
    Bool × List Nat × Stream :=
  readPPM8AsciiPackedRows ncols nrows s 0 data

/-- The inner loop of `readPGM16AsciiData` with `n` columns to go:
`if( !getShort( stream, data ) ) return false;` where `data` is never advanced. -/
def readPGM16AsciiCols : Nat → Stream → List Nat → Bool × List Nat × Stream
  | 0, s, data => (true, data, s)
  | n + 1, s, data =>
    match getShort s with
    | none => (false, data, s)
    | some (v, s1) => readPGM16AsciiCols n s1 (data.set 0 v)

/-- The outer loop of `readPGM16AsciiData` with `n` rows to go. -/
def readPGM16AsciiRows (ncols : Nat) : Nat → Stream → List Nat → Bool × List Nat × Stream
  | 0, s, data => (true, data, s)
  | n + 1, s, data =>
    match readPGM16AsciiCols ncols s data with
    | (false, d, s1) => (false, d, s1)
    | (true, d, s1) => readPGM16AsciiRows ncols n s1 d

/-- Function `readPGM16AsciiData`: `nrows*ncols` tokens read by `getShort`; the cells of
`data` are `unsigned short`. -/
def readPGM16AsciiData (s : Stream) (nrows ncols : Nat) (data : List Nat) :
    Bool × List Nat × Stream :=
  readPGM16AsciiRows ncols nrows s data

/-- Function `pgm8Read` on the result of `fopen` (`none`: the file cannot be opened) and an
allocator `malloc` (`none`: no memory; otherwise cells of arbitrary content).  The result
`none` is the return value `false`; otherwise `nrows`, `ncols` and the image. -/
def pgm8Read (file : Option Stream) (szComment : Bool) (malloc : Nat → Option (List Nat)) :
    Option (Int × Int × List Nat) :=
  match file with
  | none => none
  | some stream =>
    match parsePGMHeader stream szComment with
    | none => none
    | some (h, s1) =>
      if h.maxval > 255 then none
      else
        match malloc (h.ncols * h.nrows).toNat with
        | none => none
        | some data =>
          if h.ascii then
            if (readPGM8AsciiData s1 h.nrows.toNat h.ncols.toNat data).1 then
              some (h.nrows, h.ncols, (readPGM8AsciiData s1 h.nrows.toNat h.ncols.toNat data).2.1)
            else none
          else
            if (readPGM8BinaryData s1 h.nrows.toNat h.ncols.toNat data).1 then
              some (h.nrows, h.ncols, (readPGM8BinaryData s1 h.nrows.toNat h.ncols.toNat data).2.1)
            else none

/-- Function `ppm8ReadPacked`, on the same inputs as `pgm8Read`; the buffer has four cells
per pixel. -/
def ppm8ReadPacked (file : Option Stream) (szComment : Bool) (malloc : Nat → Option (List Nat)) :
    Option (Int × Int × List Nat) :=
  match file with
  | none => none
  | some stream =>
    match parsePPMHeader stream szComment with
    | none => none
    | some (h, s1) =>
      if h.maxval > 255 then none
      else
        match malloc (4 * h.ncols * h.nrows).toNat with
        | none => none
        | some data =>
          if h.ascii then
            if (readPPM8AsciiPacked s1 h.nrows.toNat h.ncols.toNat data).1 then
              some (h.nrows, h.ncols, (readPPM8AsciiPacked s1 h.nrows.toNat h.ncols.toNat data).2.1)
            else none
          else
            if (readPPM8BinaryPacked s1 h.nrows.toNat h.ncols.toNat data).1 then
              some (h.nrows, h.ncols, (readPPM8BinaryPacked s1 h.nrows.toNat h.ncols.toNat data).2.1)
            else none

/-! ## getopt.c -/

/-- The C function `isalnum` in the "C" locale. -/
def isalnum (c : Nat) : Bool :=
  (48 ≤ c && c ≤ 57) || (65 ≤ c && c ≤ 90) || (97 ≤ c && c ≤ 122)

/-- The C function `ispunct` in the "C" locale: printable, neither space nor alphanumeric. -/
def ispunct (c : Nat) : Bool :=
  (33 ≤ c && c ≤ 47) || (58 ≤ c && c ≤ 64) || (91 ≤ c && c ≤ 96) || (123 ≤ c && c ≤ 126)

/-- The C function `strchr` for a byte other than NUL: the rest of the string from the
first occurrence of `c` on, `none` for `NULL`. -/
def strchr : List Nat → Nat → Option (List Nat)
  | [], _ => none
  | x :: t, c => if x = c then some (x :: t) else strchr t c

/-- Function `GetOption`.  The arguments are `argv` (`argc` is its length), the valid
options and the value of the static counter `iArg` (1 before the first call); the result is
the returned `int`, `*ppszParam` (`none` for `NULL`) and the new value of `iArg`.  The byte
read one past the end of a string is its terminating NUL, 0. -/
def GetOption (argv : List (List Nat)) (pszValidOpts : List Nat) (iArg : Nat) :
    Int × Option (List Nat) × Nat :=
  if iArg < argv.length then
    if (argv.getD iArg []).getD 0 0 = 45 then
      if isalnum ((argv.getD iArg []).getD 1 0) || ispunct ((argv.getD iArg []).getD 1 0) then
        match strchr pszValidOpts ((argv.getD iArg []).getD 1 0) with
        | some psz =>
          if psz.getD 1 0 = 58 then
            if ((argv.getD iArg []).drop 2).getD 0 0 = 0 then
              if iArg + 1 < argv.length then
                if (argv.getD (iArg + 1) []).getD 0 0 = 45 then
                  if (argv.getD (iArg + 1) []).getD 1 0 = 45 then
                    (((argv.getD iArg []).getD 1 0 : Nat),
                      some ((argv.getD (iArg + 1) []).drop 1), iArg + 1 + 1)
                  else (((argv.getD iArg []).getD 1 0 : Nat), none, iArg + 1)
                else (((argv.getD iArg []).getD 1 0 : Nat), some (argv.getD (iArg + 1) []),
                  iArg + 1 + 1)
              else (((argv.getD iArg []).getD 1 0 : Nat), none, iArg + 1)
            else (((argv.getD iArg []).getD 1 0 : Nat), some ((argv.getD iArg []).drop 2),
              iArg + 1)
          else (((argv.getD iArg []).getD 1 0 : Nat), none, iArg + 1)
        | none => (-1, some (argv.getD iArg []), iArg + 1)
      else (-1, some (argv.getD iArg []), iArg + 1)
    else (1, some (argv.getD iArg []), iArg + 1)
  else (0, none, iArg + 1)

/-- The results (return value and parameter) of `n` successive calls of `GetOption`,
starting with the counter at `iArg`. -/
def GetOptionCalls (argv : List (List Nat)) (pszValidOpts : List Nat) :
    Nat → Nat → List (Int × Option (List Nat))
  | 0, _ => []
  | n + 1, iArg =>
    ((GetOption argv pszValidOpts iArg).1, (GetOption argv pszValidOpts iArg).2.1) ::
      GetOptionCalls argv pszValidOpts n (GetOption argv pszValidOpts iArg).2.2

/-- The value of the counter `iArg` after `n` successive calls of `GetOption`. -/
def GetOptionCounter (argv : List (List Nat)) (pszValidOpts : List Nat) : Nat → Nat → Nat
  | 0, iArg => iArg
  | n + 1, iArg => GetOptionCounter argv pszValidOpts n (GetOption argv pszValidOpts iArg).2.2

/-! ## LadybugTranslate2dTo3d.cpp

The arithmetic of `double` is taken over an ordered field `F` with a square root function
`sqrt`; the statements about it are over the real numbers. -/

/-- The struct `Vector3D`. -/
structure Vector3D (F : Type) where
  x : F
  y : F
  z : F

/-- The struct `LocationAndDirection`. -/
structure LocationAndDirection (F : Type) where
  location : Vector3D F
  direction : Vector3D F

/-- Function `DotProduct`. -/
def DotProduct {F : Type} [LinearOrderedField F] (lhs rhs : Vector3D F) : F :=
  lhs.x * rhs.x + lhs.y * rhs.y + lhs.z * rhs.z

/-- Function `mapOntoSphere`: `none` is the return value `false`, otherwise `onSphere`. -/
def mapOntoSphere {F : Type} [LinearOrderedField F] (sqrt : F → F)
    (locAndRot : LocationAndDirection F) (radius : F) : Option (Vector3D F) :=
  if sqrt (DotProduct locAndRot.location locAndRot.location) > radius then none
  else
    let a := DotProduct locAndRot.direction locAndRot.direction
    let b := 2 * DotProduct locAndRot.location locAndRot.direction
    let c := DotProduct locAndRot.location locAndRot.location - radius ^ 2
    let discriminant := b ^ 2 - 4 * a * c
    if discriminant < 0 then none
    else
      let t1 := (-b + sqrt discriminant) / (2 * a)
      let t2 := (-b - sqrt discriminant) / (2 * a)
      let t := if t1 < 0 then t2 else t1
      if t < 0 then none
      else
        some ⟨locAndRot.location.x + t * locAndRot.direction.x,
          locAndRot.location.y + t * locAndRot.direction.y,
          locAndRot.location.z + t * locAndRot.direction.z⟩

/-! ## ladybugStreamCopy.cpp

The SDK is external: a run of `main` is described by the list of the calls it makes.  The
result of the `k`-th SDK call of a run is `sdk k` (`true` for `LADYBUG_OK`), and
`uiNumOfImages` is the number that `ladybugGetStreamNumOfImages` reports. -/

/-- The two stream contexts of `main`. -/
inductive Context where
  | readingContext
  | writingContext
  deriving DecidableEq

/-- The calls `main` makes (the SDK functions without their `ladybug` prefix, and
`std::remove` of the temporary configuration file). -/
inductive Call where
  | CreateStreamContext (c : Context)
  | InitializeStreamForReading
  | GetStreamConfigFile
  | GetStreamHeader
  | GetStreamNumOfImages
  | GoToImage (index : Nat)
  | InitializeStreamForWritingEx
  | ReadImageFromStream
  | WriteImageToStream
  | StopStream (c : Context)
  | RemoveTempFile
  | DestroyStreamContext (c : Context)
  deriving DecidableEq

/-- The conversion of an `int` to `unsigned int`. -/
def toUInt32 (v : Int) : Nat := (v % 4294967296).toNat

/-- The loop `for (currIndex = startImageIndex; currIndex <= endImageIndex; currIndex++ )`
entered with `currIndex` and the calls made so far; a failing call leaves it (`goto _EXIT`).
The result `none` means that `fuel` rounds were not enough. -/
def copyLoop (sdk : Nat → Bool) (endImageIndex : Nat) : Nat → Nat → List Call → Option (List Call)
  | 0, _, _ => none
  | fuel + 1, currIndex, calls =>
    if currIndex ≤ endImageIndex then
      if sdk calls.length then
        if sdk (calls.length + 1) then
          copyLoop sdk endImageIndex fuel ((currIndex + 1) % 4294967296)
            (calls ++ [Call.ReadImageFromStream, Call.WriteImageToStream])
        else some (calls ++ [Call.ReadImageFromStream, Call.WriteImageToStream])
      else some (calls ++ [Call.ReadImageFromStream])
    else some calls

/-- The part of `main` from the first `ladybugCreateStreamContext` to the label `_EXIT`:
the calls made and the value of `bDeleteTempFile`. -/
def mainBody (argc : Nat) (pszConfigFileName : Option (List Nat))
    (startImageIndex endImageIndex : Nat) (sdk : Nat → Bool) (uiNumOfImages : Nat) (fuel : Nat) :
    Option (List Call × Bool) :=
  if !sdk 0 then some ([Call.CreateStreamContext Context.readingContext], false)
  else if !sdk 1 then
    some ([Call.CreateStreamContext Context.readingContext,
      Call.CreateStreamContext Context.writingContext], false)
  else if !sdk 2 then
    some ([Call.CreateStreamContext Context.readingContext,
      Call.CreateStreamContext Context.writingContext, Call.InitializeStreamForReading], false)
  else
    let calls3 := [Call.CreateStreamContext Context.readingContext,
      Call.CreateStreamContext Context.writingContext, Call.InitializeStreamForReading]
    if pszConfigFileName = none ∧ sdk 3 = false then
      some (calls3 ++ [Call.GetStreamConfigFile], false)
    else
      let calls4 := if pszConfigFileName = none then calls3 ++ [Call.GetStreamConfigFile] else calls3
      let bDeleteTempFile := decide (pszConfigFileName = none)
      if !sdk calls4.length then some (calls4 ++ [Call.GetStreamHeader], bDeleteTempFile)
      else if !sdk (calls4.length + 1) then
        some (calls4 ++ [Call.GetStreamHeader, Call.GetStreamNumOfImages], bDeleteTempFile)
      else
        let endIndex :=
          if endImageIndex > uiNumOfImages ∨ argc < 6 then
            (uiNumOfImages + 4294967295) % 4294967296
          else endImageIndex
        let calls6 := calls4 ++ [Call.GetStreamHeader, Call.GetStreamNumOfImages,
          Call.GoToImage startImageIndex]
        if !sdk (calls4.length + 2) then some (calls6, bDeleteTempFile)
        else if !sdk (calls4.length + 3) then
          some (calls6 ++ [Call.InitializeStreamForWritingEx], bDeleteTempFile)
        else
          match copyLoop sdk endIndex fuel startImageIndex
              (calls6 ++ [Call.InitializeStreamForWritingEx]) with
          | none => none
          | some calls => some (calls, bDeleteTempFile)

/-- The calls after the label `_EXIT`. -/
def mainExit (bDeleteTempFile : Bool) : List Call :=
  [Call.StopStream Context.writingContext, Call.StopStream Context.readingContext] ++
    (if bDeleteTempFile then [Call.RemoveTempFile] else []) ++
    [Call.DestroyStreamContext Context.readingContext,
      Call.DestroyStreamContext Context.writingContext]

/-- Function `main` of ladybugStreamCopy: the calls of a run with the arguments `argv`
(`argc` is its length, at most five strings after the program name are looked at).  The
result `none` means that `fuel` rounds of the copy loop were not enough. -/
def main (argv : List (List Nat)) (sdk : Nat → Bool) (uiNumOfImages : Nat) (fuel : Nat) :
    Option (List Call) :=
  if argv.length < 3 then some []
  else
    let pszConfigFileName : Option (List Nat) :=
      if argv.length > 3 then
        (if argv.getD 3 [] = str "default" then none else some (argv.getD 3 []))
      else none
    let startImageIndex := if argv.length > 4 then toUInt32 (atoi (argv.getD 4 [])) else 0
    let endImageIndex :=
      if argv.length > 5 then toUInt32 (atoi (argv.getD 5 [])) else startImageIndex
    if startImageIndex > endImageIndex then some []
    else
      match mainBody argv.length pszConfigFileName startImageIndex endImageIndex sdk
          uiNumOfImages fuel with
      | none => none
      | some (calls, bDeleteTempFile) => some (calls ++ mainExit bDeleteTempFile)

/-- The seek, read and write calls of a run, in order. -/
def copySteps (calls : List Call) : List Call :=
  calls.filter fun c =>
    match c with
    | Call.GoToImage _ => true
    | Call.ReadImageFromStream => true
    | Call.WriteImageToStream => true
    | _ => false

/-- The numbers of the images written, under the SDK's meaning of the calls:
`ladybugGoToImage` positions the reading stream, `ladybugReadImageFromStream` delivers the
image at the position and moves on by one, `ladybugWriteImageToStream` appends the image
delivered last.  The arguments are the position and the image held in `currentImage`. -/
def imagesWritten : List Call → Nat → Option Nat → List Nat
  | [], _, _ => []
  | Call.GoToImage k :: t, _, cur => imagesWritten t k cur
  | Call.ReadImageFromStream :: t, pos, _ => imagesWritten t (pos + 1) (some pos)
  | Call.WriteImageToStream :: t, pos, some i => i :: imagesWritten t pos (some i)
  | _ :: t, pos, cur => imagesWritten t pos cur

/-! ## PGRFrameRate.cpp

The `double` frame rate is taken as a rational number and the counter readings as integers
(no wrap of the 64-bit counter).  The cells that `new __int64[ m_iBufferSize ]` hands out
are not initialised: their content is the argument `memory` of the constructor. -/

/-- The data members of the class `PGRFrameRate`. -/
structure PGRFrameRate where
  m_iBufferSize : Nat
  m_iCurIndex : Nat
  m_dFrameRate : ℚ
  m_nFrequency : Int
  m_buffer : List Int

/-- The constructor `PGRFrameRate( iBufferSize )`; `frequency` is what
`QueryPerformanceFrequency` reports. -/
def PGRFrameRate.create (iBufferSize : Nat) (frequency : Int) (memory : List Int) :
    PGRFrameRate :=
  ⟨iBufferSize, 0, 0, frequency, memory⟩

/-- The loop `for ( int i = 1; i < m_iBufferSize; i++ ) m_buffer[ i - 1 ] = m_buffer[ i ];`
with `n` rounds to go, entered with `i`. -/
def shiftLoop : Nat → Nat → List Int → List Int
  | 0, _, buffer => buffer
  | n + 1, i, buffer => shiftLoop n (i + 1) (buffer.set (i - 1) (buffer.getD i 0))

/-- The end of `newFrame`: the rate is `numFrames / ( i64Diff / m_nFrequency )`, and 0 when
the two readings are equal. -/
def frameRate (numFrames : Nat) (timeLast timeFirst frequency : Int) : ℚ :=
  if timeLast - timeFirst ≠ 0 then
    (numFrames : ℚ) / (((timeLast - timeFirst : Int) : ℚ) / (frequency : ℚ))
  else 0

/-- Function `PGRFrameRate::newFrame`; `timeLast` is what `QueryPerformanceCounter`
reports.  The test `m_iCurIndex < m_iBufferSize - 1` is written without the subtraction. -/
def PGRFrameRate.newFrame (s : PGRFrameRate) (timeLast : Int) : PGRFrameRate :=
  if s.m_iCurIndex + 1 < s.m_iBufferSize then
    { s with
      m_buffer := s.m_buffer.set s.m_iCurIndex timeLast
      m_iCurIndex := s.m_iCurIndex + 1
      m_dFrameRate :=
        frameRate s.m_iCurIndex timeLast ((s.m_buffer.set s.m_iCurIndex timeLast).getD 0 0)
          s.m_nFrequency }
  else
    { s with
      m_buffer := (shiftLoop (s.m_iBufferSize - 1) 1 s.m_buffer).set s.m_iCurIndex timeLast
      m_dFrameRate := frameRate s.m_iBufferSize timeLast (s.m_buffer.getD 0 0) s.m_nFrequency }

/-- The object after `newFrame` has been called once for each of the readings, in order. -/
def PGRFrameRate.newFrames (s : PGRFrameRate) (readings : List Int) : PGRFrameRate :=
  readings.foldl PGRFrameRate.newFrame s

/-! ## PGRBitmap.cpp : saveImageToBMP

The file is described by the list of the `fwrite` calls.  The two headers are structs of
the Windows SDK and are kept as their fields; the pixel writes are kept as their bytes. -/

/-- The members of `PGRBitmap` that `saveImageToBMP` reads: width, height and bit count of
`m_pBitmapInfo->bmiHeader`, `m_iBitsPerPixel` and the pixel data. -/
structure PGRBitmap where
  biWidth : Nat
  biHeight : Int
  biBitCount : Nat
  m_iBitsPerPixel : Nat
  m_pData : List Nat

/-- The writes of `saveImageToBMP`. -/
inductive BmpWrite where
  | fileHeader (bfSize : Nat) (bfOffBits : Nat)
  | infoHeader (biWidth : Nat) (biHeight : Nat) (biBitCount : Nat)
  | row (i : Nat) (bytes : List Nat)
  | padding (bytes : List Nat)
  deriving DecidableEq

/-- The bytes of `fwrite( m_pData + offset, size, 1, outfile )` for a buffer that has them. -/
def fwriteBytes (data : List Nat) (offset size : Nat) : List Nat :=
  (data.drop offset).take size

/-- The loop `for( int i = bih.biHeight - 1; i >= 0; i-- )` of `saveImageToBMP` with the
rows below `n` still to write; `pixelSize` is `sizeof( RGBTRIPLE )`, 3, or
`sizeof( RGBQUAD )`, 4.  Each round writes the row `i` and then `biWidth % 4` bytes from
the start of the data. -/
def bmpRows (b : PGRBitmap) (pixelSize : Nat) : Nat → List BmpWrite
  | 0 => []
  | n + 1 =>
    BmpWrite.row n (fwriteBytes b.m_pData (n * b.biWidth * pixelSize) (b.biWidth * pixelSize)) ::
      BmpWrite.padding (fwriteBytes b.m_pData 0 (b.biWidth % 4)) :: bmpRows b pixelSize n

/-- Function `PGRBitmap::saveImageToBMP`: `none` is the return value `FALSE`, otherwise
the writes.  The arguments say whether `pszFilename` is not `NULL` and whether `fopen`
succeeds; 14 and 40 are the sizes of `BITMAPFILEHEADER` and `BITMAPINFOHEADER`. -/
def saveImageToBMP (b : PGRBitmap) (pszFilename : Bool) (fopen : Bool) : Option (List BmpWrite) :=
  if pszFilename = false then none
  else if b.m_iBitsPerPixel ≠ 24 ∧ b.m_iBitsPerPixel ≠ 32 then none
  else if fopen = false then none
  else
    some (BmpWrite.fileHeader
        (14 + 40 + ((b.biHeight + ((b.biWidth % 4 : Nat) : Int)) * (b.biWidth : Int)).natAbs * 3)
        (14 + 40) ::
      BmpWrite.infoHeader b.biWidth b.biHeight.natAbs b.biBitCount ::
      (if b.biBitCount = 24 then bmpRows b 3 b.biHeight.natAbs
       else if b.biBitCount = 32 then bmpRows b 4 b.biHeight.natAbs
       else []))

/-! ## ladybugOutput3DMesh.cpp and LadybugRecorderConsole.cpp

As for ladybugStreamCopy a run is the list of the calls it makes, and the result of the
`k`-th call of a run is `sdk k`. -/

/-- The step of `manualTranslation` that maps the rectified pixel to the camera-local
point `(dLocalX, dLocalY, dLocalZ)`, with the arithmetic of `double` taken over an ordered
field `F` with a square root function. -/
def manualTranslationLocal {F : Type} [LinearOrderedField F] (sqrt : F → F)
    (dRectifiedX dRectifiedY dCameraCenterX dCameraCenterY dFocalLen kSphereSize : F) :
    Vector3D F :=
  let kx := (dRectifiedX - dCameraCenterX) / dFocalLen
  let ky := (dRectifiedY - dCameraCenterY) / dFocalLen
  let dLocalZ := kSphereSize / sqrt (kx * kx + ky * ky + 1)
  ⟨kx * dLocalZ, ky * dLocalZ, dLocalZ⟩

/-! ## Vocabulary of the statements -/

/-- An option of `pszValidOpts` takes a parameter when the first occurrence of its
character is directly followed by a colon. -/
def takesParameter : List Nat → Nat → Bool
  | [], _ => false
  | x :: t, c => if x = c then t.getD 0 0 == 58 else takesParameter t c

/-- The calls of `k` read-then-write steps. -/
def copyRounds : Nat → List Call
  | 0 => []
  | k + 1 => Call.ReadImageFromStream :: Call.WriteImageToStream :: copyRounds k

/-- One item in front of a header value: a white-space byte, or a comment line, which is
a `#`, the bytes `body` and a newline. -/
inductive GapItem where
  | space (c : Nat)
  | comment (body : List Nat)

/-- The bytes of an item. -/
def GapItem.bytes : GapItem → List Nat
  | GapItem.space c => [c]
  | GapItem.comment body => 35 :: (body ++ [10])

/-- An item is well formed when its byte is white space, or when the body of its comment
has no newline. -/
def GapItem.wellFormed : GapItem → Bool
  | GapItem.space c => isspace c
  | GapItem.comment body => body.all fun b => b != 10

/-- The body of a comment fits into the buffer of 250 bytes that `getComment` reads a
line into: at most 249 bytes. -/
def GapItem.short : GapItem → Bool
  | GapItem.space _ => true
  | GapItem.comment body => body.length ≤ 249

/-- The bytes of a sequence of items. -/
def gapBytes : List GapItem → List Nat
  | [] => []
  | i :: t => i.bytes ++ gapBytes t

/-- The value of a string of decimal digits. -/
def numeralValue (ds : List Nat) : Nat :=
  ds.foldl (fun acc d => acc * 10 + (d - 48)) 0

/-- A header value as the reader accepts it: a positive decimal integer, written with
decimal digits only, in at most 510 bytes, with a value in the range of `int`. -/
def headerValue (ds : List Nat) : Bool :=
  ds.all isdigit && decide (0 < numeralValue ds) && decide (numeralValue ds ≤ 2147483647) &&
    decide (ds.length ≤ 510)

/-- The text of a header after its magic: three values, each followed by a white-space
byte, with white space and comment lines in front of each. -/
structure HeaderText where
  gap0 : List GapItem
  ncols : List Nat
  ws1 : Nat
  gap1 : List GapItem
  nrows : List Nat
  ws2 : Nat
  gap2 : List GapItem
  maxval : List Nat
  ws3 : Nat

/-- The bytes of a file that starts with the magic `P` `magic`, goes on with the header
text `h` and ends with `rest`. -/
def HeaderText.bytes (h : HeaderText) (magic : Nat) (rest : List Nat) : List Nat :=
  80 :: magic :: (gapBytes h.gap0 ++ (h.ncols ++ h.ws1 :: (gapBytes h.gap1 ++
    (h.nrows ++ h.ws2 :: (gapBytes h.gap2 ++ (h.maxval ++ h.ws3 :: rest))))))

/-- The header text is well formed for a call with or without a comment buffer: the items
and the values are well formed, each value ends at a white-space byte, and, when a comment
buffer is passed, the comment lines in front of the first value are short. -/
def HeaderText.wellFormed (h : HeaderText) (szComment : Bool) : Bool :=
  h.gap0.all GapItem.wellFormed && h.gap1.all GapItem.wellFormed &&
    h.gap2.all GapItem.wellFormed &&
    headerValue h.ncols && headerValue h.nrows && headerValue h.maxval &&
    isspace h.ws1 && isspace h.ws2 && isspace h.ws3 &&
    (!szComment || h.gap0.all GapItem.short)

/-- The in-place copy of `readPPM8BinaryPacked` for the pixels `k-1`, ..., 0 in this
order, which is the order in which its two loops visit them. -/
def packDown : Nat → List Nat → List Nat
  | 0, data => data
  | k + 1, data => packDown k (packPixel data k)

/-- The lengths of the rows of a BMP file as written: each row together with the padding
written right after it. -/
def paddedRowLengths : List BmpWrite → List Nat
  | BmpWrite.row _ bytes :: BmpWrite.padding pad :: t =>
    (bytes.length + pad.length) :: paddedRowLengths t
  | _ :: t => paddedRowLengths t
  | [] => []

/-- The image rows of a BMP file in the order in which they are written. -/
def rowsWritten : List BmpWrite → List Nat
  | BmpWrite.row i _ :: t => i :: rowsWritten t
  | _ :: t => rowsWritten t
  | [] => []

/-- The numbers `n-1`, ..., 1, 0. -/
def countDown : Nat → List Nat
  | 0 => []
  | n + 1 => n :: countDown n

/-- The calls of the cleanup of ladybugStreamCopy on a stream context. -/
def Call.isCleanup : Call → Bool
  | Call.StopStream _ => true
  | Call.DestroyStreamContext _ => true
  | _ => false

/-- C1 (the code departs from the claim): for a 1 x 1 image with the bytes `r g b` the
buffer ends as `[b, g, b, _]`, so the cell `data[2]` holds the blue byte and not the red
one; for a 1 x 2 image the cell `data[5]` of the second pixel holds its blue byte and not
its green one.  The in-place copy reads cells it has already overwritten. -/
theorem readPPM8BinaryPacked_overwrites_first_pixels
    (r g b r1 g1 b1 u0 u1 u2 u3 u4 u5 u6 u7 : Nat) (rest : Stream) :
    readPPM8BinaryPacked ([r, g, b] ++ rest) 1 1 [u0, u1, u2, u3]
        = (true, [b, g, b, u3], rest) ∧
      readPPM8BinaryPacked ([r, g, b, r1, g1, b1] ++ rest) 1 2 [u0, u1, u2, u3, u4, u5, u6, u7]
        = (true, [b, g, b, r1, b1, b1, r1, u7], rest) ∧
      (readPPM8BinaryPacked [1, 2, 3] 1 1 [0, 0, 0, 0]).2.1.getD 2 0 = 3 := by
  refine ⟨?_, ?_, ?_⟩
  · simp [readPPM8BinaryPacked, fread, packRows, packCols, packPixel]
  · simp [readPPM8BinaryPacked, fread, packRows, packCols, packPixel]
  · decide

/-- The inner loop visits the pixels of a row from its last column down. -/
theorem packDown_cols (ncols row : Nat) :
    ∀ (k : Nat) (data : List Nat),
      packDown (row * ncols + k) data = packDown (row * ncols) (packCols ncols row k data) := by
  intro k
  induction k with
  | zero => intro data; rfl
  | succ k ih =>
    intro data
    rw [← Nat.add_assoc, packDown, ih]
    rfl

/-- The two loops visit the pixels from the last one down to the first. -/
theorem packDown_rows (ncols : Nat) :
    ∀ (n : Nat) (data : List Nat), packRows ncols n data = packDown (n * ncols) data := by
  intro n
  induction n with
  | zero => intro data; simp [packRows, packDown]
  | succ n ih =>
    intro data
    rw [packRows, ih, Nat.succ_mul, packDown_cols]

/-- A cell of the buffer after one assignment. -/
theorem getD_set_cell (d : List Nat) (i j v : Nat) (hi : i < d.length) :
    (d.set i v).getD j 0 = if j = i then v else d.getD j 0 := by
  simp only [List.getD_eq_getElem?_getD, List.getElem?_set]
  by_cases h : i = j
  · subst h; simp [hi]
  · have h2 : ¬ j = i := fun e => h e.symm
    simp [h, h2]

/-- The length of the buffer is not changed by the assignments for a pixel. -/
theorem packPixel_length (d : List Nat) (k : Nat) : (packPixel d k).length = d.length := by
  simp [packPixel]

/-- The cells of the buffer after the three assignments for a pixel `k ≥ 2`: the three
cells read are not among those written. -/
theorem packPixel_cell (d : List Nat) (k j : Nat) (hk : 4 * k + 2 < d.length) (h2 : 2 ≤ k) :
    (packPixel d k).getD j 0 =
      if j = 4 * k then d.getD (3 * k + 2) 0
      else if j = 4 * k + 1 then d.getD (3 * k + 1) 0
      else if j = 4 * k + 2 then d.getD (3 * k) 0
      else d.getD j 0 := by
  have e0 : k * 4 + 0 = 4 * k := by omega
  have e1 : k * 4 + 1 = 4 * k + 1 := by omega
  have e2 : k * 4 + 2 = 4 * k + 2 := by omega
  have r0 : k * 3 + 0 = 3 * k := by omega
  have r1 : k * 3 + 1 = 3 * k + 1 := by omega
  have r2 : k * 3 + 2 = 3 * k + 2 := by omega
  have hd1 : ∀ i, (d.set (4 * k) (d.getD (3 * k + 2) 0)).getD i 0
      = if i = 4 * k then d.getD (3 * k + 2) 0 else d.getD i 0 :=
    fun i => getD_set_cell d (4 * k) i _ (by omega)
  generalize hg1 : d.set (4 * k) (d.getD (3 * k + 2) 0) = d1 at hd1
  have hl1 : d1.length = d.length := by rw [← hg1]; simp
  have hd2 : ∀ i, (d1.set (4 * k + 1) (d1.getD (3 * k + 1) 0)).getD i 0
      = if i = 4 * k + 1 then d1.getD (3 * k + 1) 0 else d1.getD i 0 :=
    fun i => getD_set_cell d1 (4 * k + 1) i _ (by omega)
  generalize hg2 : d1.set (4 * k + 1) (d1.getD (3 * k + 1) 0) = d2 at hd2
  have hl2 : d2.length = d.length := by rw [← hg2]; simp [hl1]
  have hd3 : (d2.set (4 * k + 2) (d2.getD (3 * k) 0)).getD j 0
      = if j = 4 * k + 2 then d2.getD (3 * k) 0 else d2.getD j 0 :=
    getD_set_cell d2 (4 * k + 2) j _ (by omega)
  simp only [packPixel, e0, e1, e2, r0, r1, r2]
  rw [hg1, hg2, hd3]
  simp only [hd2, hd1]
  split_ifs <;> first | rfl | (exfalso; omega)

/-- The assignments for the pixel `k` leave the cells above `4 * k + 2` as they are. -/
theorem packPixel_cell_above (d : List Nat) (k i : Nat) (hi : 4 * k + 2 < i) :
    (packPixel d k).getD i 0 = d.getD i 0 := by
  have n0 : k * 4 + 0 ≠ i := by omega
  have n1 : k * 4 + 1 ≠ i := by omega
  have n2 : k * 4 + 2 ≠ i := by omega
  simp only [packPixel, List.getD_eq_getElem?_getD, List.getElem?_set_ne n0,
    List.getElem?_set_ne n1, List.getElem?_set_ne n2]

/-- After the copy for the pixels below `k` the cells from `4 * k` on are as before, and
each pixel `p` with `2 ≤ p < k` has its blue, green and red byte in the cells `4 * p`,
`4 * p + 1`, `4 * p + 2`. -/
theorem packDown_cells :
    ∀ (k : Nat) (d : List Nat), 4 * k ≤ d.length →
      (∀ i, 4 * k ≤ i → (packDown k d).getD i 0 = d.getD i 0) ∧
      (∀ p, 2 ≤ p → p < k →
        (packDown k d).getD (4 * p) 0 = d.getD (3 * p + 2) 0 ∧
        (packDown k d).getD (4 * p + 1) 0 = d.getD (3 * p + 1) 0 ∧
        (packDown k d).getD (4 * p + 2) 0 = d.getD (3 * p) 0) := by
  intro k
  induction k with
  | zero =>
    intro d _
    exact ⟨fun _ _ => rfl, fun p _ hp => absurd hp (by omega)⟩
  | succ k ih =>
    intro d hd
    have hlen := packPixel_length d k
    obtain ⟨iha, ihb⟩ := ih (packPixel d k) (by omega)
    by_cases hk2 : 2 ≤ k
    · have hcell := fun j => packPixel_cell d k j (by omega) hk2
      constructor
      · intro i hi
        rw [packDown, iha i (by omega), hcell]
        split_ifs <;> first | rfl | (exfalso; omega)
      · intro p hp2 hpk
        rw [packDown]
        by_cases hpk2 : p < k
        · obtain ⟨h1, h2, h3⟩ := ihb p hp2 hpk2
          rw [h1, h2, h3, hcell, hcell, hcell]
          refine ⟨?_, ?_, ?_⟩ <;> (split_ifs <;> first | rfl | (exfalso; omega))
        · have hpe : p = k := by omega
          subst hpe
          rw [iha _ (by omega), iha _ (by omega), iha _ (by omega), hcell, hcell, hcell]
          refine ⟨?_, ?_, ?_⟩ <;> (split_ifs <;> first | rfl | (exfalso; omega))
    · constructor
      · intro i hi
        rw [packDown, iha i (by omega)]
        exact packPixel_cell_above d k i (by omega)
      · intro p hp2 hpk
        exact absurd hpk (by omega)

/-- The pixels from the third on are packed as `[B G R U]`: for an `nrows` x `ncols` image
whose `3 * nrows * ncols` pixel bytes `px` are on the stream and a buffer of at least
`4 * nrows * ncols` cells, every pixel `p ≥ 2` has its blue byte in `data[4p]`, its green
byte in `data[4p+1]` and its red byte in `data[4p+2]`. -/
theorem readPPM8BinaryPacked_later_pixels (nrows ncols : Nat) (px rest data : List Nat)
    (hpx : px.length = 3 * (nrows * ncols)) (hdata : 4 * (nrows * ncols) ≤ data.length)
    (p : Nat) (hp2 : 2 ≤ p) (hp : p < nrows * ncols) :
    (readPPM8BinaryPacked (px ++ rest) nrows ncols data).2.1.getD (4 * p) 0
        = px.getD (3 * p + 2) 0 ∧
      (readPPM8BinaryPacked (px ++ rest) nrows ncols data).2.1.getD (4 * p + 1) 0
        = px.getD (3 * p + 1) 0 ∧
      (readPPM8BinaryPacked (px ++ rest) nrows ncols data).2.1.getD (4 * p + 2) 0
        = px.getD (3 * p) 0 := by
  have htake : (px ++ rest).take (nrows * ncols * 3) = px := by
    rw [List.take_append_of_le_length (by omega), List.take_of_length_le (by omega)]
  simp only [readPPM8BinaryPacked, fread, htake, packDown_rows]
  have hlen : 4 * (nrows * ncols) ≤ (px ++ List.drop px.length data).length := by
    simp only [List.length_append, List.length_drop]; omega
  obtain ⟨h1, h2, h3⟩ := (packDown_cells (nrows * ncols) _ hlen).2 p hp2 hp
  rw [h1, h2, h3]
  refine ⟨?_, ?_, ?_⟩ <;> exact List.getD_append _ _ _ _ (by omega)
/-! ## Theorems: the loops of the token reader end -/

/-- The loop of `eatComment` never gives back more of the stream than it was given. -/
theorem eatCommentLoop_length :
    ∀ (s : List Nat) (ch : Option Nat), (eatCommentLoop ch s).2.length ≤ s.length := by
  intro s
  induction s with
  | nil => intro ch; simp only [eatCommentLoop]; split_ifs <;> simp
  | cons c t ih =>
    intro ch
    simp only [eatCommentLoop]
    split_ifs
    · simp
    · exact le_trans (ih (some c)) (by simp)

/-- A successful `eatComment` consumes at least one byte. -/
theorem eatComment_length (s : List Nat) (h : (eatComment s).1 = true) :
    (eatComment s).2.length < s.length := by
  cases s with
  | nil => simp [eatComment, fgetc, eatCommentLoop] at h
  | cons c t =>
    simp only [eatComment, fgetc, List.length_cons]
    exact Nat.lt_succ_of_le (eatCommentLoop_length t (some c))

/-- At the end of the file the first loop of `getToken` returns 0. -/
theorem getTokenSkip_eof (fuel : Nat) (s : List Nat) : getTokenSkip fuel none s = none := by
  cases fuel <;> rfl

/-- The first loop of `getToken` does not depend on the fuel once there is more of it
than bytes in the stream: the loop ends before the fuel does. -/
theorem getTokenSkip_fuel :
    ∀ (fuel1 fuel2 : Nat) (ch : Option Nat) (s : List Nat), s.length < fuel1 →
      s.length < fuel2 → getTokenSkip fuel1 ch s = getTokenSkip fuel2 ch s := by
  intro fuel1
  induction fuel1 with
  | zero => intro fuel2 ch s h1; omega
  | succ f1 ih =>
    intro fuel2 ch s h1 h2
    obtain ⟨f2, rfl⟩ : ∃ f, fuel2 = f + 1 := ⟨fuel2 - 1, by omega⟩
    cases ch with
    | none => rfl
    | some c =>
      simp only [getTokenSkip]
      by_cases hc : isspace c = true
      · rw [if_pos hc, if_pos hc]
        cases s with
        | nil => simp only [fgetc, getTokenSkip_eof]
        | cons c1 t =>
          simp only [fgetc]
          simp only [List.length_cons] at h1 h2
          exact ih f2 (some c1) t (by omega) (by omega)
      · rw [if_neg hc, if_neg hc]
        by_cases h35 : c = 35
        · rw [if_pos h35, if_pos h35]
          by_cases he : (eatComment s).1 = true
          · rw [if_pos he, if_pos he]
            have hl := eatComment_length s he
            cases hs : (eatComment s).2 with
            | nil => simp only [fgetc, getTokenSkip_eof]
            | cons c1 t =>
              rw [hs] at hl
              simp only [fgetc]
              simp only [List.length_cons] at hl
              exact ih f2 (some c1) t (by omega) (by omega)
          · rw [if_neg he, if_neg he]
        · rw [if_neg h35, if_neg h35]

/-- The white-space loop of `getComment` never gives back more of the stream than it was
given. -/
theorem skipSpace_length :
    ∀ (s : List Nat) (ch : Option Nat), (skipSpace ch s).2.length ≤ s.length := by
  intro s
  induction s with
  | nil =>
    intro ch
    cases ch with
    | none => simp [skipSpace]
    | some c => simp only [skipSpace]; split_ifs <;> simp
  | cons c1 t ih =>
    intro ch
    cases ch with
    | none => simp [skipSpace]
    | some c =>
      simp only [skipSpace]
      split_ifs
      · exact le_trans (ih (some c1)) (by simp)
      · simp

/-- Reading a line with `fgets` from a stream that is not at its end consumes a byte. -/
theorem fgets_length (c : Nat) (t : List Nat) :
    ∀ n, 2 ≤ n → (fgets n (c :: t)).2.length ≤ t.length := by
  intro n hn
  obtain ⟨k, rfl⟩ : ∃ k, n = k + 2 := ⟨n - 2, by omega⟩
  simp only [fgets]
  split_ifs
  · simp
  · clear hn
    induction k generalizing t with
    | zero => simp [fgets]
    | succ k ih =>
      cases t with
      | nil => simp [fgets]
      | cons c1 t1 =>
        simp only [fgets]
        split_ifs
        · simp
        · exact le_trans (ih t1) (by simp)

/-- The comment loop of `getComment` does not depend on the fuel once there is more of it
than bytes in the stream: the loop ends before the fuel does. -/
theorem getCommentLoop_fuel :
    ∀ (fuel1 fuel2 : Nat) (ch : Option Nat) (s text : List Nat) (found : Bool),
      s.length < fuel1 → s.length < fuel2 →
      getCommentLoop fuel1 ch s text found = getCommentLoop fuel2 ch s text found := by
  intro fuel1
  induction fuel1 with
  | zero => intro fuel2 ch s text found h1; omega
  | succ f1 ih =>
    intro fuel2 ch s text found h1 h2
    obtain ⟨f2, rfl⟩ : ∃ f, fuel2 = f + 1 := ⟨fuel2 - 1, by omega⟩
    simp only [getCommentLoop]
    by_cases hch : ch = some 35
    · rw [if_neg (not_not.mpr hch), if_neg (not_not.mpr hch)]
      cases s with
      | nil =>
        simp only [fgets, fgetc, skipSpace]
        cases f1 <;> cases f2 <;> simp [getCommentLoop, ungetc]
      | cons c t =>
        have hl := fgets_length c t 250 (by omega)
        have hl2 := skipSpace_length (fgetc (fgets 250 (c :: t)).2).2
          (fgetc (fgets 250 (c :: t)).2).1
        have hl3 : (fgetc (fgets 250 (c :: t)).2).2.length ≤ (fgets 250 (c :: t)).2.length := by
          cases (fgets 250 (c :: t)).2 <;> simp [fgetc]
        simp only [List.length_cons] at h1 h2
        exact ih f2 _ _ _ _ (by omega) (by omega)
    · rw [if_pos hch, if_pos hch]
/-! ## Theorems: header parser -/

/-- A decimal digit is neither white space nor the comment mark. -/
theorem isdigit_not_space (d : Nat) (h : isdigit d = true) :
    isspace d = false ∧ d ≠ 35 ∧ d ≠ 45 ∧ d ≠ 43 := by
  simp only [isdigit, Bool.and_eq_true, decide_eq_true_eq] at h
  refine ⟨?_, by omega, by omega, by omega⟩
  simp only [isspace, Bool.or_eq_false_iff, beq_eq_false_iff_ne, ne_eq, Bool.and_eq_false_iff,
    decide_eq_false_iff_not]
  omega

/-- The loop of `eatComment` ends after the newline of a comment line. -/
theorem eatCommentLoop_line (body rest : List Nat) (h : body.all (fun b => b != 10) = true) :
    ∀ ch : Option Nat, ch ≠ some 10 → eatCommentLoop ch (body ++ 10 :: rest) = (true, rest) := by
  induction body with
  | nil =>
    intro ch hch
    rw [List.nil_append, eatCommentLoop, if_neg hch]
    cases rest <;> simp [eatCommentLoop]
  | cons b bs ih =>
    intro ch hch
    simp only [List.all_cons, Bool.and_eq_true, bne_iff_ne, ne_eq] at h
    rw [List.cons_append, eatCommentLoop, if_neg hch]
    exact ih h.2 (some b) (by simpa using h.1)

/-- Function `eatComment` consumes a comment line up to and including its newline. -/
theorem eatComment_line (body rest : List Nat) (h : body.all (fun b => b != 10) = true) :
    eatComment (body ++ 10 :: rest) = (true, rest) := by
  cases body with
  | nil =>
    simp only [eatComment, fgetc, List.nil_append]
    cases rest <;> simp [eatCommentLoop]
  | cons b bs =>
    simp only [List.all_cons, Bool.and_eq_true, bne_iff_ne, ne_eq] at h
    simp only [eatComment, fgetc, List.cons_append]
    exact eatCommentLoop_line bs rest h.2 (some b) (by simpa using h.1)

/-- The first loop of `getToken` passes the white space and the comment lines in front of
a token and stops at its first byte. -/
theorem getTokenSkip_gap (d : Nat) (t : List Nat) (hd : isspace d = false) (hd35 : d ≠ 35) :
    ∀ (g : List GapItem), g.all GapItem.wellFormed = true →
      ∀ fuel, (gapBytes g).length < fuel →
        getTokenSkip fuel (fgetc (gapBytes g ++ d :: t)).1 (fgetc (gapBytes g ++ d :: t)).2
          = some (d, t) := by
  intro g
  induction g with
  | nil =>
    intro _ fuel hf
    obtain ⟨f, rfl⟩ : ∃ f, fuel = f + 1 := ⟨fuel - 1, by simp [gapBytes] at hf; omega⟩
    simp [gapBytes, fgetc, getTokenSkip, hd, hd35]
  | cons i g ih =>
    intro hg fuel hf
    simp only [List.all_cons, Bool.and_eq_true] at hg
    cases i with
    | space c =>
      simp only [gapBytes, GapItem.bytes, List.cons_append, List.nil_append, List.length_cons]
        at hf ⊢
      obtain ⟨f, rfl⟩ : ∃ f, fuel = f + 1 := ⟨fuel - 1, by omega⟩
      have hc : isspace c = true := hg.1
      simp only [fgetc, getTokenSkip, hc, if_true]
      exact ih hg.2 f (by omega)
    | comment body =>
      simp only [gapBytes, GapItem.bytes, List.cons_append, List.append_assoc,
        List.nil_append, List.length_cons, List.length_append] at hf ⊢
      obtain ⟨f, rfl⟩ : ∃ f, fuel = f + 1 := ⟨fuel - 1, by omega⟩
      have hb : body.all (fun b => b != 10) = true := hg.1
      have h35 : isspace 35 = false := by decide
      simp only [fgetc, getTokenSkip, h35, Bool.false_eq_true, if_false, if_true,
        eatComment_line body _ hb]
      exact ih hg.2 f (by omega)

/-- The second loop of `getToken` stores the digits of a value up to the white-space byte
that ends it, and consumes that byte. -/
theorem getTokenRead_digits (w : Nat) (t : List Nat) (hw : isspace w = true) :
    ∀ (ds : List Nat) (d : Nat) (buf : List Nat), isdigit d = true → ds.all isdigit = true →
      buf.length + ds.length + 1 ≤ 510 →
      getTokenRead 512 d (ds ++ w :: t) buf = some (buf ++ d :: ds, t) := by
  intro ds
  induction ds with
  | nil =>
    intro d buf hd _ hlen
    have hs := (isdigit_not_space d hd).1
    have h1 : ¬ 512 ≤ (buf ++ [d]).length + 1 := by
      simp at hlen ⊢; omega
    rw [List.nil_append, getTokenRead, hs]
    simp only [Bool.false_eq_true, if_false, if_neg h1]
    cases t <;> simp [getTokenRead, hw]
  | cons x xs ih =>
    intro d buf hd hds hlen
    have hs := (isdigit_not_space d hd).1
    simp only [List.all_cons, Bool.and_eq_true] at hds
    have h1 : ¬ 512 ≤ (buf ++ [d]).length + 1 := by
      simp at hlen ⊢; omega
    rw [List.cons_append, getTokenRead, hs]
    simp only [Bool.false_eq_true, if_false, if_neg h1]
    rw [ih x (buf ++ [d]) hds.1 hds.2 (by simp at hlen ⊢; omega)]
    simp

/-- Function `getToken` returns a value that stands behind white space and comment lines
and leaves the stream right after the white-space byte that ends the value. -/
theorem getToken_value (g : List GapItem) (ds : List Nat) (w : Nat) (t : List Nat)
    (hg : g.all GapItem.wellFormed = true) (hds : ds.all isdigit = true) (hne : ds ≠ [])
    (hlen : ds.length ≤ 510) (hw : isspace w = true) :
    getToken (gapBytes g ++ (ds ++ w :: t)) 512 = some (ds, t) := by
  cases ds with
  | nil => exact absurd rfl hne
  | cons d ds =>
    simp only [List.all_cons, Bool.and_eq_true] at hds
    have hd := isdigit_not_space d hds.1
    have hskip := getTokenSkip_gap d (ds ++ w :: t) hd.1 hd.2.1 g hg
      ((gapBytes g ++ (d :: ds ++ w :: t)).length + 1) (by simp; omega)
    simp only [getToken]
    simp only [List.cons_append] at hskip ⊢
    rw [hskip]
    simp only
    rw [getTokenRead_digits w t hw ds d [] hds.1 hds.2 (by simpa using hlen)]
    simp

/-- On a string of digits the loop of `atoi` computes its decimal value. -/
theorem atoiDigits_eq (ds : List Nat) (h : ds.all isdigit = true) :
    ∀ acc, atoiDigits acc ds = ds.foldl (fun acc d => acc * 10 + (d - 48)) acc := by
  induction ds with
  | nil => intro acc; rfl
  | cons d ds ih =>
    intro acc
    simp only [List.all_cons, Bool.and_eq_true] at h
    simp only [atoiDigits, h.1, if_true, List.foldl_cons]
    exact ih h.2 _

/-- On a header value `atoi` returns its decimal value. -/
theorem atoi_headerValue (ds : List Nat) (h : headerValue ds = true) :
    atoi ds = (numeralValue ds : Int) ∧ atoi ds ≠ 0 ∧ ds.all isdigit = true ∧ ds ≠ [] ∧
      ds.length ≤ 510 := by
  simp only [headerValue, Bool.and_eq_true, decide_eq_true_eq] at h
  obtain ⟨⟨⟨hdig, hpos⟩, hmax⟩, hlen⟩ := h
  have hne : ds ≠ [] := by
    intro he; subst he; simp [numeralValue] at hpos
  have hval : atoi ds = (numeralValue ds : Int) := by
    cases ds with
    | nil => exact absurd rfl hne
    | cons d ds =>
      have hd0 := hdig
      simp only [List.all_cons, Bool.and_eq_true] at hd0
      have hd := isdigit_not_space d hd0.1
      have hdrop : (d :: ds).dropWhile isspace = d :: ds := by
        simp [List.dropWhile, hd.1]
      have hsig : atoiSigned (d :: ds) = (atoiDigits 0 (d :: ds) : Int) := by
        simp only [atoiSigned, if_neg hd.2.2.1, if_neg hd.2.2.2]
      rw [atoi, hdrop, hsig, atoiDigits_eq _ hdig 0]
      simp only [toInt32]
      have : ((List.foldl (fun acc d => acc * 10 + (d - 48)) 0 (d :: ds) : Nat) : Int)
          = (numeralValue (d :: ds) : Int) := rfl
      rw [this]
      omega
  refine ⟨hval, ?_, hdig, hne, hlen⟩
  rw [hval]; omega

/-- Function `getInt` returns a header value that stands behind white space and comment
lines and leaves the stream right after the white-space byte that ends the value. -/
theorem getInt_value (g : List GapItem) (ds : List Nat) (w : Nat) (t : List Nat)
    (hg : g.all GapItem.wellFormed = true) (hds : headerValue ds = true)
    (hw : isspace w = true) :
    getInt (gapBytes g ++ (ds ++ w :: t)) = some ((numeralValue ds : Int), t) := by
  obtain ⟨hval, hnz, hdig, hne, hlen⟩ := atoi_headerValue ds hds
  simp only [getInt, getToken_value g ds w t hg hdig hne hlen hw, if_neg hnz]
  rw [hval]

/-- The white-space loop of `getComment` passes a white-space byte. -/
theorem skipSpace_space (c : Nat) (s : List Nat) (hc : isspace c = true) :
    skipSpace (fgetc (c :: s)).1 (fgetc (c :: s)).2 = skipSpace (fgetc s).1 (fgetc s).2 := by
  cases s <;> simp [fgetc, skipSpace, hc]

/-- The white-space loop of `getComment` stops at a byte that is not white space. -/
theorem skipSpace_stop (d : Nat) (s : List Nat) (hd : isspace d = false) :
    skipSpace (fgetc (d :: s)).1 (fgetc (d :: s)).2 = (some d, s) := by
  cases s <;> simp [fgetc, skipSpace, hd]

/-- Reading a short comment line with `fgets` leaves the stream after its newline or, when
the body fills the buffer, right in front of it. -/
theorem fgets_line (rest : List Nat) :
    ∀ (body : List Nat) (n : Nat), body.all (fun b => b != 10) = true → body.length ≤ n →
      (fgets (n + 1) (body ++ 10 :: rest)).2 = rest ∨
        (fgets (n + 1) (body ++ 10 :: rest)).2 = 10 :: rest := by
  intro body
  induction body with
  | nil =>
    intro n _ _
    cases n with
    | zero => right; rfl
    | succ k => left; simp [fgets]
  | cons b bs ih =>
    intro n hb hn
    simp only [List.all_cons, Bool.and_eq_true, bne_iff_ne, ne_eq] at hb
    obtain ⟨k, rfl⟩ : ∃ k, n = k + 1 := ⟨n - 1, by simp at hn; omega⟩
    have := ih k hb.2 (by simpa using hn)
    simpa [fgets, hb.1] using this

/-- After a short comment line has been read with `fgets`, the white-space loop of
`getComment` goes on as if it started after the newline. -/
theorem skipSpace_after_fgets (body rest : List Nat)
    (hb : body.all (fun b => b != 10) = true) (hlen : body.length ≤ 249) :
    skipSpace (fgetc (fgets 250 (body ++ 10 :: rest)).2).1
        (fgetc (fgets 250 (body ++ 10 :: rest)).2).2
      = skipSpace (fgetc rest).1 (fgetc rest).2 := by
  rcases fgets_line rest body 249 hb hlen with h | h
  · rw [h]
  · rw [h]; exact skipSpace_space 10 rest (by decide)

/-- The comment loop of `getComment` passes the white space and the short comment lines
in front of a value and pushes the first byte of the value back. -/
theorem getCommentLoop_gap (d : Nat) (t : List Nat) (hd : isspace d = false) (hd35 : d ≠ 35) :
    ∀ (g : List GapItem), g.all GapItem.wellFormed = true → g.all GapItem.short = true →
      ∀ (fuel : Nat) (text : List Nat) (found : Bool), (gapBytes g).length < fuel →
        (getCommentLoop fuel
          (skipSpace (fgetc (gapBytes g ++ d :: t)).1 (fgetc (gapBytes g ++ d :: t)).2).1
          (skipSpace (fgetc (gapBytes g ++ d :: t)).1 (fgetc (gapBytes g ++ d :: t)).2).2
          text found).2.2 = d :: t := by
  intro g
  induction g with
  | nil =>
    intro _ _ fuel text found _
    have hne : ¬ (some d = some 35) := by simpa using hd35
    simp only [gapBytes, List.nil_append, skipSpace_stop d t hd]
    cases fuel with
    | zero => simp [getCommentLoop, ungetc]
    | succ f => simp [getCommentLoop, ungetc, hd35]
  | cons i g ih =>
    intro hg hs fuel text found hf
    simp only [List.all_cons, Bool.and_eq_true] at hg hs
    cases i with
    | space c =>
      simp only [gapBytes, GapItem.bytes, List.cons_append, List.nil_append, List.length_cons]
        at hf ⊢
      rw [skipSpace_space c _ hg.1]
      exact ih hg.2 hs.2 fuel text found (by omega)
    | comment body =>
      simp only [gapBytes, GapItem.bytes, List.cons_append, List.append_assoc,
        List.nil_append, List.length_cons, List.length_append] at hf ⊢
      obtain ⟨f, rfl⟩ : ∃ f, fuel = f + 1 := ⟨fuel - 1, by omega⟩
      have hb : body.all (fun b => b != 10) = true := hg.1
      have hl : body.length ≤ 249 := by simpa [GapItem.short] using hs.1
      rw [skipSpace_stop 35 _ (by decide)]
      simp only [getCommentLoop, ne_eq, not_true_eq_false, if_false]
      rw [skipSpace_after_fgets body _ hb hl]
      exact ih hg.2 hs.2 f _ true (by omega)

/-- Function `getComment` leaves the stream at the first value of the header: with no
comment buffer it reads nothing, with one it passes white space and short comment lines. -/
theorem getComment_gap (g : List GapItem) (d : Nat) (t : List Nat) (szComment : Bool)
    (hd : isdigit d = true) (hg : g.all GapItem.wellFormed = true)
    (hs : szComment = true → g.all GapItem.short = true) :
    ∃ g1 : List GapItem, g1.all GapItem.wellFormed = true ∧
      (getComment (gapBytes g ++ d :: t) szComment).2.2 = gapBytes g1 ++ d :: t := by
  cases szComment with
  | false => exact ⟨g, hg, rfl⟩
  | true =>
    refine ⟨[], rfl, ?_⟩
    have hd1 := isdigit_not_space d hd
    simp only [getComment, Bool.true_eq_false, if_false, gapBytes, List.nil_append]
    exact getCommentLoop_gap d t hd1.1 hd1.2.1 g hg (hs rfl) _ _ _ (by simp; omega)

/-- The three values of a well-formed header text are read in the order `ncols`, `nrows`,
`maxval`, and the stream is left right after the white-space byte behind `maxval`. -/
theorem getInt_header (h : HeaderText) (szComment : Bool) (rest : List Nat)
    (hwf : h.wellFormed szComment = true) :
    getInt (getComment (gapBytes h.gap0 ++ (h.ncols ++ h.ws1 :: (gapBytes h.gap1 ++
        (h.nrows ++ h.ws2 :: (gapBytes h.gap2 ++ (h.maxval ++ h.ws3 :: rest)))))) szComment).2.2
      = some ((numeralValue h.ncols : Int), gapBytes h.gap1 ++
        (h.nrows ++ h.ws2 :: (gapBytes h.gap2 ++ (h.maxval ++ h.ws3 :: rest)))) ∧
    getInt (gapBytes h.gap1 ++ (h.nrows ++ h.ws2 :: (gapBytes h.gap2 ++
        (h.maxval ++ h.ws3 :: rest))))
      = some ((numeralValue h.nrows : Int), gapBytes h.gap2 ++ (h.maxval ++ h.ws3 :: rest)) ∧
    getInt (gapBytes h.gap2 ++ (h.maxval ++ h.ws3 :: rest))
      = some ((numeralValue h.maxval : Int), rest) := by
  simp only [HeaderText.wellFormed, Bool.and_eq_true, Bool.or_eq_true, Bool.not_eq_true'] at hwf
  obtain ⟨⟨⟨⟨⟨⟨⟨⟨⟨hg0, hg1⟩, hg2⟩, hc⟩, hr⟩, hm⟩, hw1⟩, hw2⟩, hw3⟩, hshort⟩ := hwf
  refine ⟨?_, getInt_value _ _ _ _ hg1 hr hw2, getInt_value _ _ _ _ hg2 hm hw3⟩
  obtain ⟨_, _, hdig, hne, _⟩ := atoi_headerValue h.ncols hc
  cases hnc : h.ncols with
  | nil => exact absurd hnc hne
  | cons d ds =>
    rw [hnc] at hdig hc
    have hd : isdigit d = true := by
      simp only [List.all_cons, Bool.and_eq_true] at hdig; exact hdig.1
    have hs : szComment = true → h.gap0.all GapItem.short = true := by
      intro hsz
      rcases hshort with h1 | h1
      · rw [hsz] at h1; exact absurd h1 (by decide)
      · exact h1
    obtain ⟨g, hg, heq⟩ := getComment_gap h.gap0 d (ds ++ h.ws1 :: (gapBytes h.gap1 ++
        (h.nrows ++ h.ws2 :: (gapBytes h.gap2 ++ (h.maxval ++ h.ws3 :: rest))))) szComment
        hd hg0 hs
    rw [List.cons_append, heq]
    exact getInt_value g (d :: ds) h.ws1 _ hg hc hw1

/-- A file that does not start with `P2` or `P5` is rejected by `parsePGMHeader`, and one
that does not start with `P3` or `P6` by `parsePPMHeader`. -/
theorem parseHeader_bad_magic (s : List Nat) (szComment : Bool) :
    (s.take 2 ≠ [80, 50] → s.take 2 ≠ [80, 53] → parsePGMHeader s szComment = none) ∧
    (s.take 2 ≠ [80, 51] → s.take 2 ≠ [80, 54] → parsePPMHeader s szComment = none) := by
  constructor
  · intro h2 h5
    cases s with
    | nil => rfl
    | cons a t =>
      by_cases ha : a = 80
      · subst ha
        cases t with
        | nil => rfl
        | cons b u =>
          have hb : ¬ (b = 50 ∨ b = 53) := by
            rintro (rfl | rfl)
            · exact h2 rfl
            · exact h5 rfl
          simp only [parsePGMHeader, fgetc, if_neg hb]
      · unfold parsePGMHeader
        split
        · next s1 heq =>
          simp only [fgetc, Prod.mk.injEq, Option.some.injEq] at heq
          exact absurd heq.1 ha
        · rfl
  · intro h3 h6
    cases s with
    | nil => rfl
    | cons a t =>
      by_cases ha : a = 80
      · subst ha
        cases t with
        | nil => rfl
        | cons b u =>
          have hb : ¬ (b = 51 ∨ b = 54) := by
            rintro (rfl | rfl)
            · exact h3 rfl
            · exact h6 rfl
          simp only [parsePPMHeader, fgetc, if_neg hb]
      · unfold parsePPMHeader
        split
        · next s1 heq =>
          simp only [fgetc, Prod.mk.injEq, Option.some.injEq] at heq
          exact absurd heq.1 ha
        · rfl

/-- C2 (amended): for a file that starts with the magic `P2` or `P5` (`P3` or `P6` for
PPM) and goes on with a well-formed header text, `parsePGMHeader` (`parsePPMHeader`)
returns `true` with `ncols`, `nrows`, `maxval` the three values in that order, sets `ascii`
exactly for `P2` (`P3`), and leaves the stream right after the single white-space byte
behind `maxval`; a file whose first two bytes are not one of its two magics is rejected.
Well formed means: each value is written with decimal digits in at most 510 bytes and lies
in 1..2147483647, each value is followed by a white-space byte, white space and `#` comment
lines may stand in front of each value, and when a comment buffer is passed the comment
lines in front of the first value have at most 249 bytes between `#` and the newline. -/
theorem parseHeader_wellFormed (h : HeaderText) (szComment : Bool) (rest : List Nat)
    (hwf : h.wellFormed szComment = true) :
    parsePGMHeader (h.bytes 50 rest) szComment
      = some (⟨numeralValue h.nrows, numeralValue h.ncols, numeralValue h.maxval, true⟩, rest) ∧
    parsePGMHeader (h.bytes 53 rest) szComment
      = some (⟨numeralValue h.nrows, numeralValue h.ncols, numeralValue h.maxval, false⟩, rest) ∧
    parsePPMHeader (h.bytes 51 rest) szComment
      = some (⟨numeralValue h.nrows, numeralValue h.ncols, numeralValue h.maxval, true⟩, rest) ∧
    parsePPMHeader (h.bytes 54 rest) szComment
      = some (⟨numeralValue h.nrows, numeralValue h.ncols, numeralValue h.maxval, false⟩, rest) ∧
    (∀ s : List Nat, s.take 2 ≠ [80, 50] → s.take 2 ≠ [80, 53] →
      parsePGMHeader s szComment = none) ∧
    (∀ s : List Nat, s.take 2 ≠ [80, 51] → s.take 2 ≠ [80, 54] →
      parsePPMHeader s szComment = none) := by
  obtain ⟨h1, h2, h3⟩ := getInt_header h szComment rest hwf
  refine ⟨?_, ?_, ?_, ?_, fun s => (parseHeader_bad_magic s szComment).1,
    fun s => (parseHeader_bad_magic s szComment).2⟩
  · simp [parsePGMHeader, HeaderText.bytes, fgetc, h1, h2, h3]
  · simp [parsePGMHeader, HeaderText.bytes, fgetc, h1, h2, h3]
  · simp [parsePPMHeader, HeaderText.bytes, fgetc, h1, h2, h3]
  · simp [parsePPMHeader, HeaderText.bytes, fgetc, h1, h2, h3]

set_option maxRecDepth 100000

/-- C2 fails as stated: the value 1 written with 511 digits (510 zeros and a 1) and the
value 10^510 are positive decimal integers, yet a header with such a first value is
rejected, because `getToken` gives up after 511 bytes of a token; and with a comment
buffer a header whose comment line after the magic has 250 bytes between `#` and the
newline is rejected, because `getComment` reads a comment line with `fgets` into 250
bytes and takes what is left of the line for the first value. -/
theorem parseHeader_wellFormed_counterexample :
    parsePGMHeader (str "P5 " ++ List.replicate 510 48 ++ str "1 1 255\n") false = none ∧
      parsePPMHeader (str "P6 " ++ List.replicate 510 48 ++ str "1 1 255\n") false = none ∧
      parsePGMHeader (str "P5 1" ++ List.replicate 510 48 ++ str " 1 255\n") false = none ∧
      parsePGMHeader (str "P5\n#" ++ List.replicate 250 120 ++ str "\n1 1 255\n") true
        = none := by
  refine ⟨?_, ?_, ?_, ?_⟩ <;> decide

/-- Witness for C2: the binary PGM header `P5`, a comment line, `640 480`, a comment line,
`255`, read with a comment buffer, yields `ncols = 640`, `nrows = 480`, `maxval = 255`,
`ascii = false`, and leaves the stream at the pixel data. -/
theorem parseHeader_wellFormed_witness :
    parsePGMHeader (str "P5\n# hello\n640 480\n#c\n255\n" ++ [1, 2, 3]) true
      = some (⟨480, 640, 255, false⟩, [1, 2, 3]) :=
  (parseHeader_wellFormed
    ⟨[GapItem.space 10, GapItem.comment (str " hello")], str "640", 32, [], str "480", 10,
      [GapItem.comment (str "c")], str "255", 10⟩ true [1, 2, 3] (by decide)).2.1
/-! ## Theorems: ppm8ReadPacked and readPGM16AsciiData -/

/-- Whatever follows a well-formed binary PPM header with `maxval ≤ 255`, be it the whole
pixel data, a part of it or nothing, `ppm8ReadPacked` returns `true` once the buffer is
allocated. -/
theorem ppm8ReadPacked_binary_never_fails (h : HeaderText) (szComment : Bool)
    (rest data : List Nat) (malloc : Nat → Option (List Nat))
    (hwf : h.wellFormed szComment = true) (hmax : numeralValue h.maxval ≤ 255)
    (hm : malloc (4 * numeralValue h.ncols * numeralValue h.nrows) = some data) :
    ∃ out, ppm8ReadPacked (some (h.bytes 54 rest)) szComment malloc
      = some ((numeralValue h.nrows : Int), (numeralValue h.ncols : Int), out) := by
  obtain ⟨h1, h2, h3⟩ := getInt_header h szComment rest hwf
  have hparse : parsePPMHeader (h.bytes 54 rest) szComment
      = some (⟨numeralValue h.nrows, numeralValue h.ncols, numeralValue h.maxval, false⟩,
          rest) := by
    simp [parsePPMHeader, HeaderText.bytes, fgetc, h1, h2, h3]
  have hmax2 : ¬ ((numeralValue h.maxval : Int) > 255) := by omega
  have hsize : (4 * (numeralValue h.ncols : Int) * (numeralValue h.nrows : Int)).toNat
      = 4 * numeralValue h.ncols * numeralValue h.nrows := by
    have : (4 * (numeralValue h.ncols : Int) * (numeralValue h.nrows : Int))
        = ((4 * numeralValue h.ncols * numeralValue h.nrows : Nat) : Int) := by push_cast; ring
    rw [this, Int.toNat_natCast]
  simp only [ppm8ReadPacked, hparse, if_neg hmax2, hsize, hm, Bool.false_eq_true, if_false,
    readPPM8BinaryPacked, if_true]
  exact ⟨_, rfl⟩

/-- C3 (the code departs from the claim): `readPPM8BinaryPacked` returns `true` whatever
the stream holds, so `ppm8ReadPacked` accepts the binary file `P6 1 1 255` without any
pixel byte, while `pgm8Read` rejects the binary file `P5 1 1 255` without its pixel byte. -/
theorem ppm8ReadPacked_accepts_truncated_data :
    (∀ (s : Stream) (nrows ncols : Nat) (data : List Nat),
        (readPPM8BinaryPacked s nrows ncols data).1 = true) ∧
      ppm8ReadPacked (some (str "P6\n1 1\n255\n")) false (fun n => some (List.replicate n 0))
        = some (1, 1, [0, 0, 0, 0]) ∧
      pgm8Read (some (str "P5\n1 1\n255\n")) false (fun n => some (List.replicate n 0))
        = none := by
  refine ⟨fun _ _ _ _ => rfl, ?_, ?_⟩
  · decide
  · decide

/-- C4 (the code departs from the claim): `readPGM16AsciiData` stores every value in
`data[0]` and `getShort` keeps only the low 8 bits and rejects a value whose low 8 bits are
0.  For the body `1 2` of a 1 x 2 image the buffer ends as `[2, _]`; the body `0` and the
body `256` are rejected; the body `300` is stored as 44. -/
theorem readPGM16AsciiData_departs (u0 u1 : Nat) :
    readPGM16AsciiData (str "1 2 ") 1 2 [u0, u1] = (true, [2, u1], []) ∧
      (readPGM16AsciiData (str "0 ") 1 1 [u0]).1 = false ∧
      (readPGM16AsciiData (str "256 ") 1 1 [u0]).1 = false ∧
      readPGM16AsciiData (str "300 ") 1 1 [u0] = (true, [44], []) := by
  refine ⟨?_, ?_, ?_, ?_⟩ <;> rfl

/-! ## Theorems: mapOntoSphere -/

/-- C5: over the real numbers, for a ray with a non-zero direction whose origin is within
`radius` of the centre, `mapOntoSphere` returns a point `location + t * direction` with
`0 ≤ t` that lies on the sphere of that radius; for a ray whose origin is farther than
`radius` from the centre it returns `false`. -/
theorem mapOntoSphere_spec (ld : LocationAndDirection ℝ) (radius : ℝ) :
    ((ld.direction.x ≠ 0 ∨ ld.direction.y ≠ 0 ∨ ld.direction.z ≠ 0) →
      Real.sqrt (ld.location.x ^ 2 + ld.location.y ^ 2 + ld.location.z ^ 2) ≤ radius →
      ∃ (p : Vector3D ℝ) (t : ℝ), mapOntoSphere Real.sqrt ld radius = some p ∧ 0 ≤ t ∧
        p.x = ld.location.x + t * ld.direction.x ∧
        p.y = ld.location.y + t * ld.direction.y ∧
        p.z = ld.location.z + t * ld.direction.z ∧
        p.x ^ 2 + p.y ^ 2 + p.z ^ 2 = radius ^ 2) ∧
    (radius < Real.sqrt (ld.location.x ^ 2 + ld.location.y ^ 2 + ld.location.z ^ 2) →
      mapOntoSphere Real.sqrt ld radius = none) := by
  obtain ⟨⟨lx, ly, lz⟩, ⟨dx, dy, dz⟩⟩ := ld
  have hdot : DotProduct (⟨lx, ly, lz⟩ : Vector3D ℝ) ⟨lx, ly, lz⟩ = lx ^ 2 + ly ^ 2 + lz ^ 2 := by
    simp only [DotProduct]; ring
  constructor
  · intro hdir hin
    simp only at hdir hin ⊢
    have hr : 0 ≤ radius := le_trans (Real.sqrt_nonneg _) hin
    have hll : lx ^ 2 + ly ^ 2 + lz ^ 2 ≤ radius ^ 2 := by
      have h0 : 0 ≤ lx ^ 2 + ly ^ 2 + lz ^ 2 := by positivity
      calc lx ^ 2 + ly ^ 2 + lz ^ 2 = Real.sqrt (lx ^ 2 + ly ^ 2 + lz ^ 2) ^ 2 :=
            (Real.sq_sqrt h0).symm
        _ ≤ radius ^ 2 := by
            apply pow_le_pow_left₀ (Real.sqrt_nonneg _) hin
    have ha : 0 < dx ^ 2 + dy ^ 2 + dz ^ 2 := by
      rcases hdir with h | h | h
      · have := sq_pos_of_ne_zero (a := dx) h; positivity
      · have := sq_pos_of_ne_zero (a := dy) h; positivity
      · have := sq_pos_of_ne_zero (a := dz) h; positivity
    set a := dx ^ 2 + dy ^ 2 + dz ^ 2 with ha_def
    set b := 2 * (lx * dx + ly * dy + lz * dz) with hb_def
    set c := lx ^ 2 + ly ^ 2 + lz ^ 2 - radius ^ 2 with hc_def
    have hc : c ≤ 0 := by simp only [hc_def]; linarith
    have hdisc : 0 ≤ b ^ 2 - 4 * a * c := by nlinarith [sq_nonneg b]
    have hsq : b ^ 2 ≤ b ^ 2 - 4 * a * c := by nlinarith
    have hsqrt : |b| ≤ Real.sqrt (b ^ 2 - 4 * a * c) := by
      apply Real.abs_le_sqrt hsq
    have ht1 : 0 ≤ (-b + Real.sqrt (b ^ 2 - 4 * a * c)) / (2 * a) := by
      apply div_nonneg
      · have := neg_abs_le b
        have := le_abs_self b
        linarith
      · linarith
    refine ⟨⟨lx + (-b + Real.sqrt (b ^ 2 - 4 * a * c)) / (2 * a) * dx,
      ly + (-b + Real.sqrt (b ^ 2 - 4 * a * c)) / (2 * a) * dy,
      lz + (-b + Real.sqrt (b ^ 2 - 4 * a * c)) / (2 * a) * dz⟩,
      (-b + Real.sqrt (b ^ 2 - 4 * a * c)) / (2 * a), ?_, ht1, rfl, rfl, rfl, ?_⟩
    · have hda : DotProduct (⟨dx, dy, dz⟩ : Vector3D ℝ) ⟨dx, dy, dz⟩ = a := by
        simp only [DotProduct, ha_def]; ring
      have hdb : 2 * DotProduct (⟨lx, ly, lz⟩ : Vector3D ℝ) ⟨dx, dy, dz⟩ = b := by
        simp only [DotProduct, hb_def]
      simp only [mapOntoSphere, hdot, hda, hdb]
      rw [if_neg (not_lt.mpr hin)]
      simp only [← hc_def]
      rw [if_neg (not_lt.mpr hdisc), if_neg (not_lt.mpr ht1), if_neg (not_lt.mpr ht1)]
    · simp only
      set t := (-b + Real.sqrt (b ^ 2 - 4 * a * c)) / (2 * a) with ht_def
      have hquad : a * t ^ 2 + b * t + c = 0 := by
        have hs := Real.sq_sqrt hdisc
        have ha0 : a ≠ 0 := ne_of_gt ha
        rw [ht_def]
        field_simp
        nlinarith [hs]
      have : (lx + t * dx) ^ 2 + (ly + t * dy) ^ 2 + (lz + t * dz) ^ 2
          = a * t ^ 2 + b * t + c + radius ^ 2 := by
        simp only [ha_def, hb_def, hc_def]; ring
      rw [this, hquad]; ring
  · intro hout
    simp only at hout
    simp only [mapOntoSphere, hdot]
    rw [if_pos hout]

/-- Witness for C5: the ray from the centre along the first axis meets the unit sphere,
and a ray that starts at distance 2 is rejected. -/
theorem mapOntoSphere_spec_witness :
    (∃ (p : Vector3D ℝ) (t : ℝ),
      mapOntoSphere Real.sqrt ⟨⟨0, 0, 0⟩, ⟨1, 0, 0⟩⟩ 1 = some p ∧ 0 ≤ t ∧
        p.x = 0 + t * 1 ∧ p.y = 0 + t * 0 ∧ p.z = 0 + t * 0 ∧
        p.x ^ 2 + p.y ^ 2 + p.z ^ 2 = (1 : ℝ) ^ 2) ∧
    mapOntoSphere Real.sqrt ⟨⟨2, 0, 0⟩, ⟨1, 0, 0⟩⟩ 1 = none :=
  ⟨(mapOntoSphere_spec ⟨⟨0, 0, 0⟩, ⟨1, 0, 0⟩⟩ 1).1 (Or.inl one_ne_zero) (by simp),
    (mapOntoSphere_spec ⟨⟨2, 0, 0⟩, ⟨1, 0, 0⟩⟩ 1).2 (by
      simp only
      rw [Real.lt_sqrt (by norm_num)]
      norm_num)⟩

/-! ## Theorems: GetOption -/

/-- The element right after the prefix `pre`. -/
theorem getD_at_length {α : Type} (pre post : List α) (a d : α) :
    (pre ++ a :: post).getD pre.length d = a := by
  induction pre with
  | nil => rfl
  | cons x t ih => simpa using ih

/-- The second element after the prefix `pre`. -/
theorem getD_after_length {α : Type} (pre post : List α) (a b d : α) :
    (pre ++ a :: b :: post).getD (pre.length + 1) d = b := by
  induction pre with
  | nil => rfl
  | cons x t ih => simpa using ih

/-- For a byte of the string `strchr` finds its first occurrence, and the byte after it is a
colon exactly when `takesParameter` holds. -/
theorem strchr_of_mem (opts : List Nat) (c : Nat) (h : c ∈ opts) :
    ∃ psz, strchr opts c = some psz ∧ (psz.getD 1 0 == 58) = takesParameter opts c := by
  induction opts with
  | nil => simp at h
  | cons x t ih =>
    by_cases hx : x = c
    · subst hx
      refine ⟨x :: t, by simp [strchr], ?_⟩
      simp [takesParameter]
    · have hc : c ∈ t := by
        rcases List.mem_cons.mp h with h1 | h1
        · exact absurd h1.symm hx
        · exact h1
      obtain ⟨psz, h1, h2⟩ := ih hc
      exact ⟨psz, by simp [strchr, hx, h1], by simp only [takesParameter, if_neg hx]; exact h2⟩

/-- For a byte that is not in the string `strchr` returns `NULL`. -/
theorem strchr_of_not_mem (opts : List Nat) (c : Nat) (h : c ∉ opts) :
    strchr opts c = none := by
  induction opts with
  | nil => rfl
  | cons x t ih =>
    have hx : x ≠ c := fun e => h (by simp [e])
    have hc : c ∉ t := fun e => h (by simp [e])
    simp [strchr, hx, ih hc]

/-- An option that takes a parameter occurs among the valid options. -/
theorem takesParameter_mem (opts : List Nat) (c : Nat) (h : takesParameter opts c = true) :
    c ∈ opts := by
  induction opts with
  | nil => simp [takesParameter] at h
  | cons x t ih =>
    by_cases hx : x = c
    · simp [hx]
    · simp [takesParameter, hx] at h
      simp [ih h]

/-- An option that takes a parameter and has no text attached looks at the next argument:
without one the parameter is `NULL`; one that does not start with `-` is the parameter and
is consumed; one that starts with `--` is consumed and is the parameter without its first
`-`; one that starts with a single `-` is left alone and the parameter is `NULL`. -/
theorem GetOption_next_argument (pre : List (List Nat)) (opts : List Nat) (c : Nat)
    (hgraph : (isalnum c || ispunct c) = true) (htakes : takesParameter opts c = true) :
    GetOption (pre ++ [[45, c]]) opts pre.length = ((c : Int), none, pre.length + 1) ∧
    (∀ next rest, next.getD 0 0 ≠ 45 →
      GetOption (pre ++ [45, c] :: next :: rest) opts pre.length
        = ((c : Int), some next, pre.length + 2)) ∧
    (∀ tail rest,
      GetOption (pre ++ [45, c] :: (45 :: 45 :: tail) :: rest) opts pre.length
        = ((c : Int), some (45 :: tail), pre.length + 2)) ∧
    (∀ tail rest, tail.getD 0 0 ≠ 45 →
      GetOption (pre ++ [45, c] :: (45 :: tail) :: rest) opts pre.length
        = ((c : Int), none, pre.length + 1)) := by
  obtain ⟨psz, hpsz, hcolon⟩ := strchr_of_mem opts c (takesParameter_mem opts c htakes)
  rw [htakes] at hcolon
  have h58 : psz.getD 1 0 = 58 := by simpa using hcolon
  refine ⟨?_, ?_, ?_, ?_⟩
  · have hlen : pre.length < (pre ++ [[45, c]]).length := by simp
    have hl : ¬ pre.length + 1 < (pre ++ [[45, c]]).length := by simp
    simp only [GetOption, hlen, getD_at_length, if_true, List.getD_cons_zero,
      List.getD_cons_succ, hgraph, hpsz, if_pos h58, List.drop_succ_cons, List.drop_zero,
      List.getD_nil, if_neg hl]
  · intro next rest hn
    have hlen : pre.length < (pre ++ [45, c] :: next :: rest).length := by simp
    have hl : pre.length + 1 < (pre ++ [45, c] :: next :: rest).length := by simp
    simp only [GetOption, hlen, getD_at_length, getD_after_length, if_true, List.getD_cons_zero,
      List.getD_cons_succ, hgraph, hpsz, if_pos h58, List.drop_succ_cons, List.drop_zero,
      List.getD_nil, if_pos hl, if_neg hn]
  · intro tail rest
    have hlen : pre.length < (pre ++ [45, c] :: (45 :: 45 :: tail) :: rest).length := by simp
    have hl : pre.length + 1 < (pre ++ [45, c] :: (45 :: 45 :: tail) :: rest).length := by simp
    simp only [GetOption, hlen, getD_at_length, getD_after_length, if_true, List.getD_cons_zero,
      List.getD_cons_succ, hgraph, hpsz, if_pos h58, List.drop_succ_cons, List.drop_zero,
      List.getD_nil, if_pos hl]
  · intro tail rest hn
    have hlen : pre.length < (pre ++ [45, c] :: (45 :: tail) :: rest).length := by simp
    have hl : pre.length + 1 < (pre ++ [45, c] :: (45 :: tail) :: rest).length := by simp
    simp only [GetOption, hlen, getD_at_length, getD_after_length, if_true, List.getD_cons_zero,
      List.getD_cons_succ, hgraph, hpsz, if_pos h58, List.drop_succ_cons, List.drop_zero,
      List.getD_nil, if_pos hl, if_neg hn]

/-- C6 (amended): the current argument is `-c…` where `c` is a printable character other
than the space (`isalnum` or `ispunct`) that occurs in `pszValidOpts`; the colon, which
marks a parameter there, is left aside.  `GetOption` returns `c`.  If `c` takes no parameter the parameter is `NULL` and one argument is consumed.  If it
takes one, the parameter is the text attached after `-c` when there is any; otherwise the
next argument, consumed too, when there is one and it does not start with `-`; the next
argument without its first `-`, consumed too, when it starts with `--`; and `NULL` when the
next argument starts with a single `-` or there is none. -/
theorem GetOption_valid_option (pre post : List (List Nat)) (opts attached : List Nat) (c : Nat)
    (hgraph : (isalnum c || ispunct c) = true) (_hcolon : c ≠ 58) (hmem : c ∈ opts)
    (hnul : 0 ∉ attached) :
    (GetOption (pre ++ (45 :: c :: attached) :: post) opts pre.length).1 = (c : Int) ∧
    (takesParameter opts c = false →
      (GetOption (pre ++ (45 :: c :: attached) :: post) opts pre.length).2
        = (none, pre.length + 1)) ∧
    (takesParameter opts c = true → attached ≠ [] →
      (GetOption (pre ++ (45 :: c :: attached) :: post) opts pre.length).2
        = (some attached, pre.length + 1)) ∧
    (takesParameter opts c = true → attached = [] →
      (post = [] →
        (GetOption (pre ++ (45 :: c :: attached) :: post) opts pre.length).2
          = (none, pre.length + 1)) ∧
      (∀ next rest, post = next :: rest → next.getD 0 0 ≠ 45 →
        (GetOption (pre ++ (45 :: c :: attached) :: post) opts pre.length).2
          = (some next, pre.length + 2)) ∧
      (∀ tail rest, post = (45 :: 45 :: tail) :: rest →
        (GetOption (pre ++ (45 :: c :: attached) :: post) opts pre.length).2
          = (some (45 :: tail), pre.length + 2)) ∧
      (∀ tail rest, post = (45 :: tail) :: rest → tail.getD 0 0 ≠ 45 →
        (GetOption (pre ++ (45 :: c :: attached) :: post) opts pre.length).2
          = (none, pre.length + 1))) := by
  obtain ⟨psz, hpsz, hcolon⟩ := strchr_of_mem opts c hmem
  have hlen : pre.length < (pre ++ (45 :: c :: attached) :: post).length := by simp
  have hatt : (attached.getD 0 0 = 0) ↔ attached = [] := by
    cases attached with
    | nil => simp
    | cons a t =>
      simp only [List.getD_cons_zero, reduceCtorEq, iff_false]
      intro h; exact hnul (by simp [h])
  refine ⟨?_, ?_, ?_, ?_⟩
  · simp only [GetOption, hlen, getD_at_length, if_true, List.getD_cons_zero, List.getD_cons_succ,
      hgraph, hpsz]
    split_ifs <;> rfl
  · intro ht
    rw [ht] at hcolon
    have h58 : ¬ psz.getD 1 0 = 58 := by simpa using hcolon
    simp only [GetOption, hlen, getD_at_length, if_true, List.getD_cons_zero,
      List.getD_cons_succ, hgraph, hpsz, if_neg h58]
  · intro ht hne
    rw [ht] at hcolon
    have h58 : psz.getD 1 0 = 58 := by simpa using hcolon
    have h0 : ¬ attached.getD 0 0 = 0 := fun h => hne (hatt.mp h)
    simp only [GetOption, hlen, getD_at_length, if_true, List.getD_cons_zero,
      List.getD_cons_succ, hgraph, hpsz, if_pos h58, List.drop_succ_cons, List.drop_zero,
      if_neg h0]
  · intro ht he
    subst he
    obtain ⟨n1, n2, n3, n4⟩ := GetOption_next_argument pre opts c hgraph ht
    refine ⟨?_, ?_, ?_, ?_⟩
    · intro hp; subst hp
      rw [n1]
    · intro next rest hp hn; subst hp
      rw [n2 next rest hn]
    · intro tail rest hp; subst hp
      rw [n3 tail rest]
    · intro tail rest hp hn; subst hp
      rw [n4 tail rest hn]

/-- C6 fails as stated: after `-A` the next argument `--5` starts with `-`, yet it is
consumed and the parameter is `-5`, not `NULL`; and when the valid options consist of one
space, which then occurs in them, the argument made of `-` and a space yields -1 with the
argument as parameter, not the space; and with the valid options `AA:`, where an `A` is
followed by a colon, `-A 1` yields `A` with a `NULL` parameter, because only the first
occurrence of the character is looked at. -/
theorem GetOption_valid_option_counterexample :
    GetOption [str "prog", str "-A", str "--5"] (str "A:") 1 = (65, some (str "-5"), 3) ∧
      GetOption [str "prog", str "- "] (str " ") 1 = (-1, some (str "- "), 2) ∧
      GetOption [str "prog", str "-A", str "1"] (str "AA:") 1 = (65, none, 2) := by
  refine ⟨?_, ?_, ?_⟩ <;> decide

/-- Witness for C6, the example of the documentation: with the valid options `A:B:CD:`
the first call on `-A 1 -B 2 -C -D hello` takes `1` as the parameter of `A` and moves on by
two arguments, and five calls yield `A 1`, `B 2`, `C`, `D hello` and then 0. -/
theorem GetOption_valid_option_witness :
    (GetOption ([str "prog"] ++ (45 :: 65 :: []) :: [str "1", str "-B", str "2", str "-C",
        str "-D", str "hello"]) (str "A:B:CD:") 1).2 = (some (str "1"), 1 + 2) ∧
      GetOptionCalls [str "prog", str "-A", str "1", str "-B", str "2", str "-C", str "-D",
        str "hello"] (str "A:B:CD:") 5 1
        = [(65, some (str "1")), (66, some (str "2")), (67, none), (68, some (str "hello")),
            (0, none)] :=
  ⟨((GetOption_valid_option [str "prog"] [str "1", str "-B", str "2", str "-C", str "-D",
      str "hello"] (str "A:B:CD:") [] 65 (by decide) (by decide) (by decide) (by decide)).2.2.2
      (by decide) rfl).2.1 (str "1") _ rfl (by decide), by decide⟩

/-- An argument that starts with `-` and whose second byte does not occur in
`pszValidOpts` yields -1 with the whole argument as parameter, and one argument is
consumed. -/
theorem GetOption_invalid_option (pre post : List (List Nat)) (opts arg : List Nat)
    (hdash : arg.getD 0 0 = 45) (hnot : arg.getD 1 0 ∉ opts) :
    GetOption (pre ++ arg :: post) opts pre.length = (-1, some arg, pre.length + 1) := by
  have hlen : pre.length < (pre ++ arg :: post).length := by simp
  simp only [GetOption, hlen, getD_at_length, if_true, hdash, strchr_of_not_mem opts _ hnot]
  split_ifs <;> rfl

/-- C7 (the code departs from the claim): with the valid options `A:` the colon is no
option character, yet for every argument that starts with `-:` the call returns the colon
(58) with a `NULL` parameter instead of -1 with the argument. -/
theorem GetOption_colon_is_accepted (pre post : List (List Nat)) (tail : List Nat) :
    GetOption (pre ++ (45 :: 58 :: tail) :: post) (str "A:") pre.length
      = (58, none, pre.length + 1) := by
  have hlen : pre.length < (pre ++ (45 :: 58 :: tail) :: post).length := by simp
  have h1 : (isalnum 58 || ispunct 58) = true := by decide
  have h2 : strchr (str "A:") 58 = some [58] := by decide
  have h3 : ¬ ([58] : List Nat).getD 1 0 = 58 := by decide
  simp only [GetOption, hlen, getD_at_length, if_true, List.getD_cons_zero,
    List.getD_cons_succ, h1, h2, if_neg h3]
  rfl

/-- A call moves the counter on by one, or by two when it returns an option character and
hands out the next argument as the parameter: whole when that argument does not start
with `-`, without its first `-` when it starts with `--`. -/
theorem GetOption_counter (argv : List (List Nat)) (opts : List Nat) (iArg : Nat) :
    (GetOption argv opts iArg).2.2 = iArg + 1 ∨
      ((GetOption argv opts iArg).2.2 = iArg + 2 ∧ iArg + 1 < argv.length ∧
        (GetOption argv opts iArg).1 = (((argv.getD iArg []).getD 1 0 : Nat) : Int) ∧
        (((argv.getD (iArg + 1) []).getD 0 0 ≠ 45 ∧
            (GetOption argv opts iArg).2.1 = some (argv.getD (iArg + 1) [])) ∨
          ((argv.getD (iArg + 1) []).getD 0 0 = 45 ∧ (argv.getD (iArg + 1) []).getD 1 0 = 45 ∧
            (GetOption argv opts iArg).2.1 = some ((argv.getD (iArg + 1) []).drop 1)))) := by
  unfold GetOption
  by_cases h1 : iArg < argv.length
  · rw [if_pos h1]
    by_cases h2 : (argv.getD iArg []).getD 0 0 = 45
    · rw [if_pos h2]
      by_cases h3 : (isalnum ((argv.getD iArg []).getD 1 0) ||
          ispunct ((argv.getD iArg []).getD 1 0)) = true
      · rw [if_pos h3]
        cases strchr opts ((argv.getD iArg []).getD 1 0) with
        | none => exact Or.inl rfl
        | some psz =>
          simp only
          by_cases h4 : psz.getD 1 0 = 58
          · rw [if_pos h4]
            by_cases h5 : ((argv.getD iArg []).drop 2).getD 0 0 = 0
            · rw [if_pos h5]
              by_cases h6 : iArg + 1 < argv.length
              · rw [if_pos h6]
                by_cases h7 : (argv.getD (iArg + 1) []).getD 0 0 = 45
                · rw [if_pos h7]
                  by_cases h8 : (argv.getD (iArg + 1) []).getD 1 0 = 45
                  · rw [if_pos h8]; exact Or.inr ⟨rfl, h6, rfl, Or.inr ⟨h7, h8, rfl⟩⟩
                  · rw [if_neg h8]; exact Or.inl rfl
                · rw [if_neg h7]; exact Or.inr ⟨rfl, h6, rfl, Or.inl ⟨h7, rfl⟩⟩
              · rw [if_neg h6]; exact Or.inl rfl
            · rw [if_neg h5]; exact Or.inl rfl
          · rw [if_neg h4]; exact Or.inl rfl
      · rw [if_neg h3]; exact Or.inl rfl
    · rw [if_neg h2]; exact Or.inl rfl
  · rw [if_neg h1]; exact Or.inl rfl

/-- Before the end of the argument list the value 0 is not returned. -/
theorem GetOption_value (argv : List (List Nat)) (opts : List Nat) (iArg : Nat)
    (h : iArg < argv.length) : (GetOption argv opts iArg).1 ≠ 0 := by
  unfold GetOption
  rw [if_pos h]
  by_cases h2 : (argv.getD iArg []).getD 0 0 = 45
  · rw [if_pos h2]
    by_cases h3 : (isalnum ((argv.getD iArg []).getD 1 0) ||
        ispunct ((argv.getD iArg []).getD 1 0)) = true
    · rw [if_pos h3]
      have hpos : ((argv.getD iArg []).getD 1 0 : Int) ≠ 0 := by
        intro hc
        have h0 : (argv.getD iArg []).getD 1 0 = 0 := by exact_mod_cast hc
        rw [h0] at h3
        exact absurd h3 (by decide)
      cases strchr opts ((argv.getD iArg []).getD 1 0) with
      | none => simp
      | some psz =>
        simp only
        split_ifs <;> exact hpos
    · rw [if_neg h3]; simp
  · rw [if_neg h2]; simp

/-- At the end of the argument list a call returns 0 and `NULL`. -/
theorem GetOption_at_end (argv : List (List Nat)) (opts : List Nat) (iArg : Nat)
    (h : argv.length ≤ iArg) : GetOption argv opts iArg = (0, none, iArg + 1) := by
  unfold GetOption
  rw [if_neg (by omega)]

/-- At the end of the argument list every further call returns 0 and `NULL`. -/
theorem GetOptionCalls_at_end (argv : List (List Nat)) (opts : List Nat) (n iArg : Nat)
    (h : argv.length ≤ iArg) :
    GetOptionCalls argv opts n iArg = List.replicate n (0, none) := by
  induction n generalizing iArg with
  | zero => rfl
  | succ n ih =>
    simp only [GetOptionCalls, GetOption_at_end argv opts iArg h, List.replicate_succ]
    rw [ih (iArg + 1) (by omega)]

/-- Each call moves the counter on. -/
theorem GetOptionCounter_ge (argv : List (List Nat)) (opts : List Nat) (n iArg : Nat) :
    iArg + n ≤ GetOptionCounter argv opts n iArg := by
  induction n generalizing iArg with
  | zero => simp [GetOptionCounter]
  | succ n ih =>
    simp only [GetOptionCounter]
    have h1 := ih (GetOption argv opts iArg).2.2
    rcases GetOption_counter argv opts iArg with h | ⟨h, _⟩ <;> omega

/-- The counter after one more call is the counter that the call at the counter reached
so far gives. -/
theorem GetOptionCounter_succ (argv : List (List Nat)) (opts : List Nat) (n iArg : Nat) :
    GetOptionCounter argv opts (n + 1) iArg
      = (GetOption argv opts (GetOptionCounter argv opts n iArg)).2.2 := by
  induction n generalizing iArg with
  | zero => rfl
  | succ n ih =>
    rw [GetOptionCounter, ih]
    rfl

/-- In the run of calls from the first call on, every position `j ≥ 1` is the counter of
some call, or the call at the position in front of it moves on by two. -/
theorem GetOptionCounter_reaches (argv : List (List Nat)) (opts : List Nat) (j : Nat)
    (hj : 1 ≤ j) :
    ∃ n, GetOptionCounter argv opts n 1 = j ∨
      (GetOptionCounter argv opts n 1 + 1 = j ∧
        (GetOption argv opts (GetOptionCounter argv opts n 1)).2.2 = j + 1) := by
  induction j with
  | zero => omega
  | succ j ih =>
    by_cases h1 : j = 0
    · subst h1
      exact ⟨0, Or.inl rfl⟩
    · obtain ⟨n, hn | ⟨hn, hstep⟩⟩ := ih (by omega)
      · rcases GetOption_counter argv opts (GetOptionCounter argv opts n 1) with h | ⟨h, _⟩
        · exact ⟨n + 1, Or.inl (by rw [GetOptionCounter_succ, h, hn])⟩
        · exact ⟨n, Or.inr ⟨by rw [hn], by rw [h, hn]⟩⟩
      · exact ⟨n + 1, Or.inl (by rw [GetOptionCounter_succ, hstep])⟩

/-- C8 (amended): once the counter has reached the end of the argument list (which is so
after `argc - 1` calls at the latest, counted from the first call) every call returns 0
with a `NULL` parameter; before that point 0 is not returned; a call whose current
argument does not start with `-` returns 1 with that argument and moves on by exactly one
argument; and a call moves on by one argument or by two, and when by two, it returns the
option character of its current argument and hands out the argument after it as the
parameter: whole when that argument does not start with `-`, without its first `-` when
it starts with `--`.  In the run of calls from the first call on, no argument that does
not start with `-` is skipped: some call finds it as its current argument and returns 1
with it, or the call for the argument in front of it returns the option character of that
argument with this argument as the parameter. -/
theorem GetOption_end_of_list (argv : List (List Nat)) (opts : List Nat) :
    (∀ iArg, argv.length ≤ iArg → ∀ m,
      GetOptionCalls argv opts m iArg = List.replicate m (0, none)) ∧
    (∀ n, argv.length ≤ n + 1 → ∀ m,
      GetOptionCalls argv opts m (GetOptionCounter argv opts n 1)
        = List.replicate m (0, none)) ∧
    (∀ iArg, iArg < argv.length → (GetOption argv opts iArg).1 ≠ 0) ∧
    (∀ iArg, iArg < argv.length → (argv.getD iArg []).getD 0 0 ≠ 45 →
      GetOption argv opts iArg = (1, some (argv.getD iArg []), iArg + 1)) ∧
    (∀ iArg, iArg < argv.length →
      (GetOption argv opts iArg).2.2 = iArg + 1 ∨
        ((GetOption argv opts iArg).2.2 = iArg + 2 ∧ iArg + 1 < argv.length ∧
          (GetOption argv opts iArg).1 = (((argv.getD iArg []).getD 1 0 : Nat) : Int) ∧
          (((argv.getD (iArg + 1) []).getD 0 0 ≠ 45 ∧
              (GetOption argv opts iArg).2.1 = some (argv.getD (iArg + 1) [])) ∨
            ((argv.getD (iArg + 1) []).getD 0 0 = 45 ∧
              (argv.getD (iArg + 1) []).getD 1 0 = 45 ∧
              (GetOption argv opts iArg).2.1 = some ((argv.getD (iArg + 1) []).drop 1))))) ∧
    (∀ j, 1 ≤ j → j < argv.length → (argv.getD j []).getD 0 0 ≠ 45 →
      ∃ n, (GetOptionCounter argv opts n 1 = j ∧
          GetOption argv opts (GetOptionCounter argv opts n 1)
            = (1, some (argv.getD j []), j + 1)) ∨
        (GetOptionCounter argv opts n 1 + 1 = j ∧
          GetOption argv opts (GetOptionCounter argv opts n 1)
            = ((((argv.getD (GetOptionCounter argv opts n 1) []).getD 1 0 : Nat) : Int),
                some (argv.getD j []), j + 1))) := by
  refine ⟨?_, ?_, ?_, ?_, ?_, ?_⟩
  · intro iArg h m
    exact GetOptionCalls_at_end argv opts m iArg h
  · intro n hn m
    apply GetOptionCalls_at_end
    have := GetOptionCounter_ge argv opts n 1
    omega
  · intro iArg h
    exact GetOption_value argv opts iArg h
  · intro iArg h hd
    unfold GetOption
    rw [if_pos h, if_neg hd]
  · intro iArg _
    exact GetOption_counter argv opts iArg
  · intro j hj hlen hd
    obtain ⟨n, hn | ⟨hn, hstep⟩⟩ := GetOptionCounter_reaches argv opts j hj
    · refine ⟨n, Or.inl ⟨hn, ?_⟩⟩
      rw [hn]
      unfold GetOption
      rw [if_pos hlen, if_neg hd]
    · refine ⟨n, Or.inr ⟨hn, ?_⟩⟩
      generalize GetOptionCounter argv opts n 1 = i at hn hstep
      subst hn
      rcases GetOption_counter argv opts i with h | ⟨h, _, hv, ⟨_, hp⟩ | ⟨h45, _, _⟩⟩
      · omega
      · exact Prod.ext hv (Prod.ext hp h)
      · exact absurd h45 hd

/-- C8 fails as stated: for the arguments `prog -A 1` with the valid options `A:` the
argument `1` does not start with `-`, and no call returns the value 1: the first call
returns the option `A` with the parameter `1`, and the calls after it return 0 with
`NULL`. -/
theorem GetOption_end_of_list_counterexample :
    (str "1").getD 0 0 ≠ 45 ∧
      GetOptionCalls [str "prog", str "-A", str "1"] (str "A:") 3 1
        = [(65, some (str "1")), (0, none), (0, none)] ∧
      GetOption [str "prog", str "-A", str "1"] (str "A:") 1 = (65, some (str "1"), 3) := by
  refine ⟨by decide, by decide, by decide⟩

/-- Witness for C8: for the arguments `prog x -C` with the valid options `A:B:CD:` the
first call returns 1 with `x`, and after two calls every call returns 0 with `NULL`; for
the arguments `prog -A 1` with the valid options `A:` the argument `1` is handed out by
some call of the run. -/
theorem GetOption_end_of_list_witness :
    GetOption [str "prog", str "x", str "-C"] (str "A:B:CD:") 1 = (1, some (str "x"), 2) ∧
      GetOptionCalls [str "prog", str "x", str "-C"] (str "A:B:CD:") 3
        (GetOptionCounter [str "prog", str "x", str "-C"] (str "A:B:CD:") 2 1)
        = List.replicate 3 (0, none) ∧
      ∃ n, (GetOptionCounter [str "prog", str "-A", str "1"] (str "A:") n 1 = 2 ∧
          GetOption [str "prog", str "-A", str "1"] (str "A:")
              (GetOptionCounter [str "prog", str "-A", str "1"] (str "A:") n 1)
            = (1, some ([str "prog", str "-A", str "1"].getD 2 []), 2 + 1)) ∨
        (GetOptionCounter [str "prog", str "-A", str "1"] (str "A:") n 1 + 1 = 2 ∧
          GetOption [str "prog", str "-A", str "1"] (str "A:")
              (GetOptionCounter [str "prog", str "-A", str "1"] (str "A:") n 1)
            = (((([str "prog", str "-A", str "1"].getD
                  (GetOptionCounter [str "prog", str "-A", str "1"] (str "A:") n 1) []).getD
                    1 0 : Nat) : Int),
                some ([str "prog", str "-A", str "1"].getD 2 []), 2 + 1)) :=
  ⟨(GetOption_end_of_list [str "prog", str "x", str "-C"] (str "A:B:CD:")).2.2.2.1 1
      (by decide) (by decide),
    (GetOption_end_of_list [str "prog", str "x", str "-C"] (str "A:B:CD:")).2.1 2
      (by decide) 3,
    (GetOption_end_of_list [str "prog", str "-A", str "1"] (str "A:")).2.2.2.2.2 2
      (by decide) (by decide) (by decide)⟩

/-- C9: the current argument is `-c` with nothing attached, where `c` is an option that
takes a parameter (a printable character other than the space and the colon whose first
occurrence in `pszValidOpts` is followed by a colon).  When the next argument starts with
`--` it is consumed and returned without its first `-`.  When it starts with a single `-`
it is not consumed and the parameter is `NULL`; the next call then has it as its current
argument and treats it as an option: it returns -1 with that argument, or the option
character after its `-`. -/
theorem GetOption_negative_escape (pre post : List (List Nat)) (opts tail : List Nat) (c : Nat)
    (hgraph : (isalnum c || ispunct c) = true) (_hcolon : c ≠ 58)
    (htakes : takesParameter opts c = true) :
    GetOption (pre ++ [45, c] :: (45 :: 45 :: tail) :: post) opts pre.length
      = ((c : Int), some (45 :: tail), pre.length + 2) ∧
    (tail.getD 0 0 ≠ 45 →
      GetOption (pre ++ [45, c] :: (45 :: tail) :: post) opts pre.length
        = ((c : Int), none, pre.length + 1) ∧
      (GetOption (pre ++ [45, c] :: (45 :: tail) :: post) opts (pre.length + 1)
          = (-1, some (45 :: tail), pre.length + 2) ∨
        (GetOption (pre ++ [45, c] :: (45 :: tail) :: post) opts (pre.length + 1)).1
          = ((tail.getD 0 0 : Nat) : Int))) := by
  obtain ⟨_, _, n3, n4⟩ := GetOption_next_argument pre opts c hgraph htakes
  constructor
  · exact n3 tail post
  · intro hn
    constructor
    · exact n4 tail post hn
    · have hlen : pre.length + 1 < (pre ++ [45, c] :: (45 :: tail) :: post).length := by simp
      unfold GetOption
      rw [if_pos hlen]
      simp only [getD_after_length, List.getD_cons_zero, List.getD_cons_succ, if_true]
      by_cases h3 : (isalnum (tail.getD 0 0) || ispunct (tail.getD 0 0)) = true
      · rw [if_pos h3]
        cases strchr opts (tail.getD 0 0) with
        | none => exact Or.inl rfl
        | some psz =>
          right
          simp only
          split_ifs <;> rfl
      · rw [if_neg h3]; exact Or.inl rfl

/-- Witness for C9, the example `-A --5`: the option `A` gets the parameter `-5`; and for
`-A -B` the parameter is `NULL` and `-B` is left for the next call. -/
theorem GetOption_negative_escape_witness :
    GetOption ([str "prog"] ++ [45, 65] :: (45 :: 45 :: str "5") :: []) (str "A:B:") 1
        = (65, some (str "-5"), 1 + 2) ∧
      GetOption ([str "prog"] ++ [45, 65] :: (45 :: str "B") :: []) (str "A:B:") 1
        = (65, none, 1 + 1) :=
  ⟨(GetOption_negative_escape [str "prog"] [] (str "A:B:") (str "5") 65 (by decide)
      (by decide) (by decide)).1,
    ((GetOption_negative_escape [str "prog"] [] (str "A:B:") (str "B") 65 (by decide)
      (by decide) (by decide)).2 (by decide)).1⟩

/-! ## Theorems: ladybugStreamCopy -/

/-- When every call succeeds the copy loop makes one read-then-write step for each index
from `currIndex` to `endImageIndex`. -/
theorem copyLoop_all_ok (e : Nat) (he : e + 1 < 4294967296) :
    ∀ (k cur fuel : Nat) (calls : List Call), k = e + 1 - cur → k < fuel →
      copyLoop (fun _ => true) e fuel cur calls = some (calls ++ copyRounds k) := by
  intro k
  induction k with
  | zero =>
    intro cur fuel calls hk hf
    obtain ⟨f, rfl⟩ : ∃ f, fuel = f + 1 := ⟨fuel - 1, by omega⟩
    have hc : ¬ cur ≤ e := by omega
    simp [copyLoop, hc, copyRounds]
  | succ k ih =>
    intro cur fuel calls hk hf
    obtain ⟨f, rfl⟩ : ∃ f, fuel = f + 1 := ⟨fuel - 1, by omega⟩
    have hc : cur ≤ e := by omega
    have hmod : (cur + 1) % 4294967296 = cur + 1 := Nat.mod_eq_of_lt (by omega)
    simp only [copyLoop, if_pos hc, if_true, hmod]
    rw [ih (cur + 1) f _ (by omega) (by omega)]
    simp [copyRounds]

/-- The seek, read and write calls among the rounds of the loop followed by the calls
after `_EXIT` are the rounds. -/
theorem copySteps_rounds (k : Nat) (b : Bool) :
    copySteps (copyRounds k ++ mainExit b) = copyRounds k := by
  induction k with
  | zero => cases b <;> rfl
  | succ k ih =>
    simp only [copySteps, copyRounds, List.cons_append, List.filter_cons, if_true] at ih ⊢
    rw [ih]

/-- The images written by the rounds of the loop that start at the position `pos`. -/
theorem imagesWritten_rounds (k : Nat) (b : Bool) :
    ∀ (pos : Nat) (cur : Option Nat),
      imagesWritten (copyRounds k ++ mainExit b) pos cur = List.range' pos k := by
  induction k with
  | zero => intro pos cur; cases b <;> rfl
  | succ k ih =>
    intro pos cur
    simp only [copyRounds, List.cons_append, imagesWritten, List.range'_succ]
    exact congrArg _ (ih _ _)

/-- The calls of `main` up to the label `_EXIT` when every call succeeds and `To` is not
given. -/
theorem mainBody_all_ok (argc : Nat) (cfg : Option (List Nat)) (start e N fuel : Nat)
    (hargc : argc < 6) (hN : 1 ≤ N) (hN32 : N < 4294967296) (hfuel : N < fuel) :
    mainBody argc cfg start e (fun _ => true) N fuel
      = some ([Call.CreateStreamContext Context.readingContext,
          Call.CreateStreamContext Context.writingContext, Call.InitializeStreamForReading] ++
          (if cfg = none then [Call.GetStreamConfigFile] else []) ++
          [Call.GetStreamHeader, Call.GetStreamNumOfImages, Call.GoToImage start,
            Call.InitializeStreamForWritingEx] ++ copyRounds (N - start),
          decide (cfg = none)) := by
  have hend : (N + 4294967295) % 4294967296 = N - 1 := by omega
  have hloop := copyLoop_all_ok (N - 1) (by omega) (N - start) start fuel
  have hor : (e > N ∨ argc < 6) := Or.inr hargc
  cases cfg with
  | none =>
    simp only [mainBody, Bool.not_true, Bool.false_eq_true, if_false, and_false, if_true, hor,
      hend]
    rw [hloop _ (by omega) (by omega)]
    simp
  | some c =>
    simp only [mainBody, Bool.not_true, Bool.false_eq_true, if_false, and_false, hor, hend,
      reduceCtorEq, false_and, if_true]
    rw [hloop _ (by omega) (by omega)]
    simp

/-- The seek, read and write calls of a run in which every call succeeds. -/
theorem copySteps_all_ok (cfg : Option (List Nat)) (start k : Nat) (b : Bool) :
    copySteps ([Call.CreateStreamContext Context.readingContext,
        Call.CreateStreamContext Context.writingContext, Call.InitializeStreamForReading] ++
        (if cfg = none then [Call.GetStreamConfigFile] else []) ++
        [Call.GetStreamHeader, Call.GetStreamNumOfImages, Call.GoToImage start,
          Call.InitializeStreamForWritingEx] ++ copyRounds k ++ mainExit b)
      = Call.GoToImage start :: copyRounds k := by
  cases cfg with
  | none =>
    simp only [if_true, List.append_assoc, List.cons_append, List.nil_append, copySteps,
      List.filter_cons, Bool.false_eq_true, if_false]
    exact congrArg _ (copySteps_rounds _ _)
  | some c =>
    simp only [reduceCtorEq, if_false, List.append_assoc, List.cons_append, List.nil_append,
      copySteps, List.filter_cons, Bool.false_eq_true, if_true]
    exact congrArg _ (copySteps_rounds _ _)

/-- The images written by a run in which every call succeeds. -/
theorem imagesWritten_all_ok (cfg : Option (List Nat)) (start k : Nat) (b : Bool) :
    imagesWritten ([Call.CreateStreamContext Context.readingContext,
        Call.CreateStreamContext Context.writingContext, Call.InitializeStreamForReading] ++
        (if cfg = none then [Call.GetStreamConfigFile] else []) ++
        [Call.GetStreamHeader, Call.GetStreamNumOfImages, Call.GoToImage start,
          Call.InitializeStreamForWritingEx] ++ copyRounds k ++ mainExit b) 0 none
      = List.range' start k := by
  cases cfg with
  | none =>
    simp only [if_true, List.append_assoc, List.cons_append, List.nil_append, imagesWritten]
    exact imagesWritten_rounds _ _ _ _
  | some c =>
    simp only [reduceCtorEq, if_false, List.append_assoc, List.cons_append, List.nil_append,
      imagesWritten]
    exact imagesWritten_rounds _ _ _ _

/-- The run of `main` with at most five arguments on a stream of `N` images when every
call succeeds: the seek to `startImageIndex`, then a step for each image from there on. -/
theorem main_all_ok (argv : List (List Nat)) (N fuel start : Nat)
    (h3 : 3 ≤ argv.length) (h5 : argv.length ≤ 5)
    (hstart : (if argv.length > 4 then toUInt32 (atoi (argv.getD 4 [])) else 0) = start)
    (hN : 1 ≤ N) (hN32 : N < 4294967296) (hfuel : N < fuel) :
    ∃ calls, main argv (fun _ => true) N fuel = some calls ∧
      copySteps calls = Call.GoToImage start :: copyRounds (N - start) ∧
      imagesWritten calls 0 none = List.range' start (N - start) := by
  have hlt3 : ¬ argv.length < 3 := by omega
  have hgt5 : ¬ argv.length > 5 := by omega
  simp only [main, if_neg hlt3, if_neg hgt5, hstart, gt_iff_lt, lt_irrefl, if_false]
  rw [mainBody_all_ok _ _ _ _ _ _ (by omega) hN hN32 hfuel]
  exact ⟨_, rfl, copySteps_all_ok _ _ _ _, imagesWritten_all_ok _ _ _ _⟩

/-- C10: on a source stream of `N ≥ 1` images, when every SDK call succeeds, a run with
neither From nor To (`argc` is 3 or 4) seeks to image 0 and then makes exactly `N`
read-then-write steps, which copies the images 0..N-1 in stream order; a run with From only
(`argc` is 5) seeks to From and makes a step for each of the images From..N-1.  The run
ends for every `fuel` above `N`. -/
theorem main_copies_all_by_default (argv : List (List Nat)) (N fuel : Nat)
    (hN : 1 ≤ N) (hN32 : N < 4294967296) (hfuel : N < fuel) :
    (argv.length = 3 ∨ argv.length = 4 →
      ∃ calls, main argv (fun _ => true) N fuel = some calls ∧
        copySteps calls = Call.GoToImage 0 :: copyRounds N ∧
        imagesWritten calls 0 none = List.range N) ∧
    (argv.length = 5 →
      ∃ calls, main argv (fun _ => true) N fuel = some calls ∧
        copySteps calls = Call.GoToImage (toUInt32 (atoi (argv.getD 4 []))) ::
          copyRounds (N - toUInt32 (atoi (argv.getD 4 []))) ∧
        imagesWritten calls 0 none
          = List.range' (toUInt32 (atoi (argv.getD 4 []))) (N - toUInt32 (atoi (argv.getD 4 [])))) := by
  constructor
  · intro h
    have h4 : ¬ argv.length > 4 := by omega
    obtain ⟨calls, h1, h2, h3⟩ := main_all_ok argv N fuel 0 (by omega) (by omega)
      (by rw [if_neg h4]) hN hN32 hfuel
    exact ⟨calls, h1, by simpa using h2, by simpa [List.range_eq_range'] using h3⟩
  · intro h
    have h4 : argv.length > 4 := by omega
    exact main_all_ok argv N fuel _ (by omega) (by omega) (by rw [if_pos h4]) hN hN32 hfuel

/-- Witness for C10: on a stream of three images `ladybugStreamCopy src dst` copies the
images 0, 1, 2 and `ladybugStreamCopy src dst default 1` copies the images 1, 2. -/
theorem main_copies_all_by_default_witness :
    (∃ calls, main [str "ladybugStreamCopy", str "src", str "dst"] (fun _ => true) 3 4
        = some calls ∧
        copySteps calls = Call.GoToImage 0 :: copyRounds 3 ∧
        imagesWritten calls 0 none = List.range 3) ∧
    (∃ calls, main [str "ladybugStreamCopy", str "src", str "dst", str "default", str "1"]
        (fun _ => true) 3 4 = some calls ∧
        copySteps calls = Call.GoToImage 1 :: copyRounds (3 - 1) ∧
        imagesWritten calls 0 none = List.range' 1 (3 - 1)) :=
  ⟨(main_copies_all_by_default [str "ladybugStreamCopy", str "src", str "dst"] 3 4
      (by decide) (by decide) (by decide)).1 (Or.inl rfl),
    (main_copies_all_by_default
      [str "ladybugStreamCopy", str "src", str "dst", str "default", str "1"] 3 4
      (by decide) (by decide) (by decide)).2 rfl⟩
/-! ## Theorems: PGRFrameRate -/

/-- C11 (the code departs from the claim): with a buffer of 3, the fourth call of
`newFrame` (made after 3 earlier calls) divides 3 by the time since the reading taken 2
calls earlier, not 3 calls earlier, and the fifth call divides 3 by the time since the
content `m2` of a buffer cell that was never written.  With the frequency 1 and the
readings 0, 1, 2, 3 the rate after the fourth call is 3/2, where the claim gives
3 / ((3 - 0) / 1) = 1. -/
theorem newFrame_warm_up_departs (f t0 t1 t2 t3 t4 m0 m1 m2 : Int) :
    ((PGRFrameRate.create 3 f [m0, m1, m2]).newFrames [t0, t1, t2, t3]).m_dFrameRate
        = frameRate 3 t3 t1 f ∧
      ((PGRFrameRate.create 3 f [m0, m1, m2]).newFrames [t0, t1, t2, t3, t4]).m_dFrameRate
        = frameRate 3 t4 m2 f ∧
      ((PGRFrameRate.create 3 1 [0, 0, 0]).newFrames [0, 1, 2, 3]).m_dFrameRate = 3 / 2 ∧
      (3 : ℚ) / (((3 - 0 : Int) : ℚ) / ((1 : Int) : ℚ)) = 1 := by
  refine ⟨?_, ?_, ?_, ?_⟩
  · simp [PGRFrameRate.newFrames, PGRFrameRate.newFrame, PGRFrameRate.create, shiftLoop]
  · simp [PGRFrameRate.newFrames, PGRFrameRate.newFrame, PGRFrameRate.create, shiftLoop]
  · simp [PGRFrameRate.newFrames, PGRFrameRate.newFrame, PGRFrameRate.create, shiftLoop,
      frameRate]
  · norm_num

/-- The shift loop moves the cells behind a prefix of `i - 1` cells down by one and leaves
the last cell as it is. -/
theorem shiftLoop_append :
    ∀ (rest pre : List Int) (x : Int),
      shiftLoop rest.length (pre.length + 1) (pre ++ x :: rest)
        = pre ++ rest ++ [(x :: rest).getLast (List.cons_ne_nil x rest)] := by
  intro rest
  induction rest with
  | nil => intro pre x; simp [shiftLoop]
  | cons y rest ih =>
    intro pre x
    have hget : (pre ++ x :: y :: rest).getD (pre.length + 1) 0 = y := by
      rw [List.getD_append_right _ _ _ _ (by omega)]
      simp
    have hset : (pre ++ x :: y :: rest).set (pre.length + 1 - 1) y = (pre ++ [y]) ++ y :: rest := by
      simp [List.set_append]
    simp only [List.length_cons, shiftLoop, hget, hset]
    have := ih (pre ++ [y]) y
    simp only [List.length_append, List.length_singleton] at this
    rw [this]
    simp [List.getLast_cons]

/-- Shifting a full buffer and storing the new reading in its last cell drops the oldest
cell and appends the reading. -/
theorem shiftLoop_set (buffer : List Int) (t : Int) (h : buffer ≠ []) :
    (shiftLoop (buffer.length - 1) 1 buffer).set (buffer.length - 1) t = buffer.tail ++ [t] := by
  cases buffer with
  | nil => exact absurd rfl h
  | cons x rest =>
    have := shiftLoop_append rest [] x
    simp only [List.length_nil, Nat.zero_add, List.nil_append] at this
    simp only [List.length_cons, Nat.add_sub_cancel, this, List.tail_cons]
    rw [List.set_append_right _ _ (by simp)]
    simp

/-- A call of `newFrame` on a full buffer: the oldest reading leaves the buffer and the
rate is computed from it. -/
theorem newFrame_full (s : PGRFrameRate) (t : Int) (hcur : s.m_iCurIndex + 1 = s.m_iBufferSize)
    (hlen : s.m_buffer.length = s.m_iBufferSize) :
    s.newFrame t =
      { s with
        m_buffer := s.m_buffer.tail ++ [t]
        m_dFrameRate := frameRate s.m_iBufferSize t (s.m_buffer.getD 0 0) s.m_nFrequency } := by
  have hne : s.m_buffer ≠ [] := by
    intro h0; rw [h0] at hlen; simp at hlen; omega
  have hnot : ¬ s.m_iCurIndex + 1 < s.m_iBufferSize := by omega
  have hc : s.m_iCurIndex = s.m_buffer.length - 1 := by omega
  simp only [PGRFrameRate.newFrame, if_neg hnot]
  rw [← hlen, hc, shiftLoop_set _ _ hne]

/-- Calls of `newFrame` on a full buffer slide the window over the readings. -/
theorem newFrames_full :
    ∀ (us : List Int) (s : PGRFrameRate), s.m_iCurIndex + 1 = s.m_iBufferSize →
      s.m_buffer.length = s.m_iBufferSize →
      (s.newFrames us).m_iCurIndex = s.m_iCurIndex ∧
      (s.newFrames us).m_iBufferSize = s.m_iBufferSize ∧
      (s.newFrames us).m_nFrequency = s.m_nFrequency ∧
      (s.newFrames us).m_buffer = (s.m_buffer ++ us).drop us.length := by
  intro us
  induction us with
  | nil => intro s _ _; simp [PGRFrameRate.newFrames]
  | cons u us ih =>
    intro s hcur hlen
    have hne : s.m_buffer ≠ [] := by
      intro h0; rw [h0] at hlen; simp at hlen; omega
    have hstep := newFrame_full s u hcur hlen
    have hlen1 : (s.m_buffer.tail ++ [u]).length = s.m_iBufferSize := by
      simp [List.length_tail]; omega
    obtain ⟨h1, h2, h3, h4⟩ := ih (s.newFrame u) (by rw [hstep]; exact hcur)
      (by rw [hstep]; exact hlen1)
    simp only [PGRFrameRate.newFrames, List.foldl_cons] at h1 h2 h3 h4 ⊢
    refine ⟨by rw [h1, hstep], by rw [h2, hstep], by rw [h3, hstep], ?_⟩
    rw [h4, hstep]
    cases hb : s.m_buffer with
    | nil => exact absurd hb hne
    | cons x rest => simp

/-- The first calls of `newFrame`, while the buffer fills, count up `m_iCurIndex` and keep
the length of the buffer. -/
theorem newFrames_filling :
    ∀ (us : List Int) (s : PGRFrameRate), s.m_iCurIndex + us.length + 1 ≤ s.m_iBufferSize →
      (s.newFrames us).m_iCurIndex = s.m_iCurIndex + us.length ∧
      (s.newFrames us).m_iBufferSize = s.m_iBufferSize ∧
      (s.newFrames us).m_nFrequency = s.m_nFrequency ∧
      (s.newFrames us).m_buffer.length = s.m_buffer.length := by
  intro us
  induction us with
  | nil => intro s _; simp [PGRFrameRate.newFrames]
  | cons u us ih =>
    intro s h
    simp only [List.length_cons] at h
    have hlt : s.m_iCurIndex + 1 < s.m_iBufferSize := by omega
    have hstep : s.newFrame u = { s with
        m_buffer := s.m_buffer.set s.m_iCurIndex u
        m_iCurIndex := s.m_iCurIndex + 1
        m_dFrameRate := frameRate s.m_iCurIndex u ((s.m_buffer.set s.m_iCurIndex u).getD 0 0)
          s.m_nFrequency } := by
      simp only [PGRFrameRate.newFrame, if_pos hlt]
    obtain ⟨h1, h2, h3, h4⟩ := ih (s.newFrame u) (by rw [hstep]; simp only; omega)
    simp only [PGRFrameRate.newFrames, List.foldl_cons, List.length_cons] at h1 h2 h3 h4 ⊢
    refine ⟨by rw [h1, hstep]; simp only; omega, by rw [h2, hstep], by rw [h3, hstep], ?_⟩
    rw [h4, hstep]
    simp

/-- From the call number `2 * B - 1` on (counted from 0) the claim of C11 holds: for a
buffer of `B ≥ 1` cells, after at least `2 * B - 1` earlier calls, `newFrame` sets the frame
rate to `B` divided by the time between the current reading and the reading taken `B`
calls earlier. -/
theorem newFrame_steady (B : Nat) (f : Int) (memory ts : List Int) (t : Int) (hB : 1 ≤ B)
    (hmem : memory.length = B) (hts : 2 * B - 1 ≤ ts.length) :
    ((PGRFrameRate.create B f memory).newFrames (ts ++ [t])).m_dFrameRate
      = frameRate B t (ts.getD (ts.length - B) 0) f := by
  have hsplit : ts = ts.take (B - 1) ++ ts.drop (B - 1) := (List.take_append_drop _ _).symm
  have htake : (ts.take (B - 1)).length = B - 1 := by
    rw [List.length_take]; omega
  have hdrop : (ts.drop (B - 1)).length = ts.length - (B - 1) := List.length_drop _ _
  generalize hs0 : PGRFrameRate.create B f memory = s0
  have c1 : s0.m_iCurIndex = 0 := by rw [← hs0]; rfl
  have c2 : s0.m_iBufferSize = B := by rw [← hs0]; rfl
  have c3 : s0.m_nFrequency = f := by rw [← hs0]; rfl
  have c4 : s0.m_buffer.length = B := by rw [← hs0]; exact hmem
  obtain ⟨a1, a2, a3, a4⟩ := newFrames_filling (ts.take (B - 1)) s0
    (by rw [c1, c2, htake]; omega)
  rw [c1, htake, Nat.zero_add] at a1
  rw [c2] at a2
  rw [c3] at a3
  rw [c4] at a4
  generalize hs1 : s0.newFrames (ts.take (B - 1)) = s1 at a1 a2 a3 a4
  obtain ⟨b1, b2, b3, b4⟩ := newFrames_full (ts.drop (B - 1)) s1
    (by rw [a1, a2]; omega) (by rw [a4, a2])
  rw [a1] at b1
  rw [a2] at b2
  rw [a3] at b3
  have hcomp : s0.newFrames (ts ++ [t]) = (s1.newFrames (ts.drop (B - 1))).newFrame t := by
    conv_lhs => rw [hsplit]
    rw [← hs1]
    simp only [PGRFrameRate.newFrames, List.foldl_append, List.foldl_cons, List.foldl_nil]
  have hlen2 : (s1.newFrames (ts.drop (B - 1))).m_buffer.length = B := by
    rw [b4, List.length_drop, List.length_append, a4]; omega
  rw [hcomp, newFrame_full _ t (by rw [b1, b2]; omega) (by rw [hlen2, b2])]
  simp only [b2, b3, b4]
  congr 1
  rw [List.getD_eq_getElem?_getD, List.getElem?_drop, Nat.add_zero,
    List.getElem?_append_right (by rw [a4, hdrop]; omega), a4, hdrop,
    List.getElem?_drop, List.getD_eq_getElem?_getD]
  congr 2
  omega
/-! ## Theorems: saveImageToBMP -/

/-- The rows of the loop of `saveImageToBMP` are written from the last one down. -/
theorem rowsWritten_bmpRows (b : PGRBitmap) (pixelSize : Nat) :
    ∀ n, rowsWritten (bmpRows b pixelSize n) = countDown n := by
  intro n
  induction n with
  | zero => rfl
  | succ n ih => simp only [bmpRows, rowsWritten, countDown, ih]

/-- The bytes of a write that lies within the data. -/
theorem fwriteBytes_length (data : List Nat) (offset size : Nat)
    (h : offset + size ≤ data.length) : (fwriteBytes data offset size).length = size := by
  simp only [fwriteBytes, List.length_take, List.length_drop]
  omega

/-- Each round of the loop of `saveImageToBMP` writes `biWidth * pixelSize` bytes of the
row and `biWidth % 4` bytes after it. -/
theorem paddedRowLengths_bmpRows (b : PGRBitmap) (pixelSize : Nat) (hw : 1 ≤ b.biWidth)
    (hp : 3 ≤ pixelSize) :
    ∀ n, n * b.biWidth * pixelSize ≤ b.m_pData.length →
      paddedRowLengths (bmpRows b pixelSize n)
        = List.replicate n (b.biWidth * pixelSize + b.biWidth % 4) := by
  intro n
  induction n with
  | zero => intro _; rfl
  | succ n ih =>
    intro hlen
    have hmul : (n + 1) * b.biWidth * pixelSize
        = n * b.biWidth * pixelSize + b.biWidth * pixelSize := by ring
    have hrow : 3 ≤ b.biWidth * pixelSize := by nlinarith
    have hmod : b.biWidth % 4 < 4 := Nat.mod_lt _ (by omega)
    simp only [bmpRows, paddedRowLengths, List.replicate_succ]
    rw [ih (by omega), fwriteBytes_length _ _ _ (by omega),
      fwriteBytes_length _ _ _ (by omega)]

/-- For a bitmap of 24 bits per pixel with a width of at least 1 whose data holds
`3 * width * height` bytes, each row is written with its padding in a number of bytes that
is a multiple of 4, and the rows are written bottom-up; for 32 bits per pixel the rows are
written bottom-up too, each in `4 * width + width % 4` bytes. -/
theorem saveImageToBMP_rows (b : PGRBitmap) (hw : 1 ≤ b.biWidth)
    (hbits : b.m_iBitsPerPixel = b.biBitCount) :
    (b.biBitCount = 24 → b.biHeight.natAbs * b.biWidth * 3 ≤ b.m_pData.length →
      ∃ writes, saveImageToBMP b true true = some writes ∧
        rowsWritten writes = countDown b.biHeight.natAbs ∧
        ∀ len ∈ paddedRowLengths writes, len % 4 = 0) ∧
    (b.biBitCount = 32 → b.biHeight.natAbs * b.biWidth * 4 ≤ b.m_pData.length →
      ∃ writes, saveImageToBMP b true true = some writes ∧
        rowsWritten writes = countDown b.biHeight.natAbs ∧
        paddedRowLengths writes
          = List.replicate b.biHeight.natAbs (b.biWidth * 4 + b.biWidth % 4)) := by
  have hsave : (b.biBitCount = 24 ∨ b.biBitCount = 32) →
      saveImageToBMP b true true = some (BmpWrite.fileHeader
        (14 + 40 + ((b.biHeight + ((b.biWidth % 4 : Nat) : Int)) * (b.biWidth : Int)).natAbs * 3)
        (14 + 40) ::
      BmpWrite.infoHeader b.biWidth b.biHeight.natAbs b.biBitCount ::
      (if b.biBitCount = 24 then bmpRows b 3 b.biHeight.natAbs
       else if b.biBitCount = 32 then bmpRows b 4 b.biHeight.natAbs
       else [])) := by
    intro h
    have hguard : ¬ (b.m_iBitsPerPixel ≠ 24 ∧ b.m_iBitsPerPixel ≠ 32) := by
      rw [hbits]; omega
    simp only [saveImageToBMP, if_neg hguard, Bool.true_eq_false, if_false]
  constructor
  · intro h24 hlen
    refine ⟨_, hsave (Or.inl h24), ?_, ?_⟩
    · simp only [rowsWritten, if_pos h24, rowsWritten_bmpRows]
    · simp only [paddedRowLengths, if_pos h24,
        paddedRowLengths_bmpRows b 3 hw (by omega) _ hlen]
      intro len hl
      rw [(List.mem_replicate.mp hl).2]
      omega
  · intro h32 hlen
    have h24 : ¬ b.biBitCount = 24 := by rw [h32]; decide
    refine ⟨_, hsave (Or.inr h32), ?_, ?_⟩
    · simp only [rowsWritten, if_neg h24, if_pos h32, rowsWritten_bmpRows]
    · simp only [paddedRowLengths, if_neg h24, if_pos h32,
        paddedRowLengths_bmpRows b 4 hw (by omega) _ hlen]

/-- C12 (the code departs from the claim): for a bitmap of 32 bits per pixel, 1 pixel wide
and 1 pixel high, `saveImageToBMP` writes the 4 bytes of the row and then `1 % 4 = 1` more
byte, so the row with its padding has 5 bytes, which is not a multiple of 4.  The padding
`biWidth % 4` lines up the 3-byte pixels of the 24-bit case and is written in the 32-bit
case as well. -/
theorem saveImageToBMP_32bit_row_not_padded (b g r u : Nat) :
    saveImageToBMP ⟨1, 1, 32, 32, [b, g, r, u]⟩ true true
        = some [BmpWrite.fileHeader 60 54, BmpWrite.infoHeader 1 1 32,
            BmpWrite.row 0 [b, g, r, u], BmpWrite.padding [b]] ∧
      paddedRowLengths [BmpWrite.fileHeader 60 54, BmpWrite.infoHeader 1 1 32,
            BmpWrite.row 0 [b, g, r, u], BmpWrite.padding [b]] = [5] ∧
      5 % 4 ≠ 0 := by
  refine ⟨?_, rfl, by decide⟩
  rfl
/-! ## Theorems: manualTranslation -/

/-- C14: over the real numbers, for every rectified pixel `(rx, ry)`, image centre
`(cx, cy)`, focal length `f ≠ 0` and sphere size `R > 0`, the camera-local point
`(X, Y, Z)` that `manualTranslation` computes lies on the sphere of radius `R`, satisfies
the pin-hole equations `rx = (X / Z) * f + cx` and `ry = (Y / Z) * f + cy`, and has
`Z > 0`. -/
theorem manualTranslationLocal_solves (rx ry cx cy f R : ℝ) (hf : f ≠ 0) (hR : 0 < R) :
    (manualTranslationLocal Real.sqrt rx ry cx cy f R).x ^ 2
        + (manualTranslationLocal Real.sqrt rx ry cx cy f R).y ^ 2
        + (manualTranslationLocal Real.sqrt rx ry cx cy f R).z ^ 2 = R ^ 2 ∧
      rx = ((manualTranslationLocal Real.sqrt rx ry cx cy f R).x
        / (manualTranslationLocal Real.sqrt rx ry cx cy f R).z) * f + cx ∧
      ry = ((manualTranslationLocal Real.sqrt rx ry cx cy f R).y
        / (manualTranslationLocal Real.sqrt rx ry cx cy f R).z) * f + cy ∧
      0 < (manualTranslationLocal Real.sqrt rx ry cx cy f R).z := by
  simp only [manualTranslationLocal]
  set kx := (rx - cx) / f with hkx
  set ky := (ry - cy) / f with hky
  have hpos : 0 < kx * kx + ky * ky + 1 := by nlinarith [mul_self_nonneg kx, mul_self_nonneg ky]
  have hs : 0 < Real.sqrt (kx * kx + ky * ky + 1) := Real.sqrt_pos.mpr hpos
  have hsq : Real.sqrt (kx * kx + ky * ky + 1) ^ 2 = kx * kx + ky * ky + 1 :=
    Real.sq_sqrt (le_of_lt hpos)
  have hz : 0 < R / Real.sqrt (kx * kx + ky * ky + 1) := div_pos hR hs
  refine ⟨?_, ?_, ?_, hz⟩
  · have : (kx * (R / Real.sqrt (kx * kx + ky * ky + 1))) ^ 2
        + (ky * (R / Real.sqrt (kx * kx + ky * ky + 1))) ^ 2
        + (R / Real.sqrt (kx * kx + ky * ky + 1)) ^ 2
        = (kx * kx + ky * ky + 1) * R ^ 2 / Real.sqrt (kx * kx + ky * ky + 1) ^ 2 := by
      field_simp; ring
    rw [this, hsq]
    field_simp
  · rw [mul_div_assoc, div_self (ne_of_gt hz), mul_one, hkx]
    field_simp
  · rw [mul_div_assoc, div_self (ne_of_gt hz), mul_one, hky]
    field_simp

/-- Witness for C14: with the pixel at the image centre, the focal length 1 and the
sphere size 1 the hypotheses hold and the computed point solves the equations. -/
theorem manualTranslationLocal_solves_witness :
    (manualTranslationLocal Real.sqrt 0 0 0 0 1 1).x ^ 2
        + (manualTranslationLocal Real.sqrt 0 0 0 0 1 1).y ^ 2
        + (manualTranslationLocal Real.sqrt 0 0 0 0 1 1).z ^ 2 = (1 : ℝ) ^ 2 ∧
      (0 : ℝ) = ((manualTranslationLocal Real.sqrt 0 0 0 0 1 1).x
        / (manualTranslationLocal Real.sqrt 0 0 0 0 1 1).z) * 1 + 0 ∧
      (0 : ℝ) = ((manualTranslationLocal Real.sqrt 0 0 0 0 1 1).y
        / (manualTranslationLocal Real.sqrt 0 0 0 0 1 1).z) * 1 + 0 ∧
      0 < (manualTranslationLocal Real.sqrt 0 0 0 0 1 1).z :=
  manualTranslationLocal_solves 0 0 0 0 1 1 one_ne_zero one_pos
/-! ## Theorems: the error paths of ladybugStreamCopy -/

/-- The copy loop only adds read and write calls, and it makes no call after a failed
one: when the `k`-th call fails, the loop ends with at most `k + 1` calls made. -/
theorem copyLoop_shape (sdk : Nat → Bool) (e : Nat) :
    ∀ (fuel cur : Nat) (calls out : List Call), copyLoop sdk e fuel cur calls = some out →
      (∃ more, out = calls ++ more ∧ ∀ c ∈ more, Call.isCleanup c = false) ∧
      (∀ k, sdk k = false → calls.length ≤ k → out.length ≤ k + 1) := by
  intro fuel
  induction fuel with
  | zero => intro cur calls out h; simp [copyLoop] at h
  | succ fuel ih =>
    intro cur calls out h
    simp only [copyLoop] at h
    by_cases hc : cur ≤ e
    · rw [if_pos hc] at h
      by_cases h1 : sdk calls.length = true
      · rw [if_pos h1] at h
        by_cases h2 : sdk (calls.length + 1) = true
        · rw [if_pos h2] at h
          obtain ⟨⟨more, hm, hcl⟩, hk⟩ := ih _ _ _ h
          refine ⟨⟨[Call.ReadImageFromStream, Call.WriteImageToStream] ++ more, ?_, ?_⟩, ?_⟩
          · rw [hm]; simp
          · intro c hcm
            rcases List.mem_append.mp hcm with hc1 | hc1
            · simp only [List.mem_cons, List.mem_singleton, List.not_mem_nil, or_false] at hc1
              rcases hc1 with rfl | rfl <;> rfl
            · exact hcl c hc1
          · intro k hkf hlen
            have hne1 : calls.length ≠ k := fun e1 => by rw [e1, hkf] at h1; exact absurd h1 (by decide)
            have hne2 : calls.length + 1 ≠ k := fun e1 => by
              rw [e1, hkf] at h2; exact absurd h2 (by decide)
            exact hk k hkf (by simp; omega)
        · rw [if_neg h2] at h
          simp only [Option.some.injEq] at h
          subst h
          refine ⟨⟨_, rfl, ?_⟩, ?_⟩
          · intro c hc1
            simp only [List.mem_cons, List.mem_singleton, List.not_mem_nil, or_false] at hc1
            rcases hc1 with rfl | rfl <;> rfl
          · intro k hkf hlen
            have hne1 : calls.length ≠ k := fun e1 => by rw [e1, hkf] at h1; exact absurd h1 (by decide)
            simp; omega
      · rw [if_neg h1] at h
        simp only [Option.some.injEq] at h
        subst h
        refine ⟨⟨_, rfl, ?_⟩, ?_⟩
        · intro c hc1
          simp only [List.mem_singleton] at hc1
          subst hc1; rfl
        · intro k hkf hlen
          simp; omega
    · rw [if_neg hc] at h
      simp only [Option.some.injEq] at h
      subst h
      exact ⟨⟨[], by simp, by simp⟩, fun k _ hlen => by omega⟩

/-- The part of `main` before `_EXIT` starts with the creation of the reading context,
makes no cleanup call, and makes no call after a failed one: when the `k`-th call fails,
at most `k + 1` calls are made before `_EXIT`. -/
theorem mainBody_shape (argc : Nat) (cfg : Option (List Nat)) (start e : Nat)
    (sdk : Nat → Bool) (N fuel : Nat) (body : List Call) (b : Bool)
    (h : mainBody argc cfg start e sdk N fuel = some (body, b)) :
    body.head? = some (Call.CreateStreamContext Context.readingContext) ∧
      (∀ c ∈ body, Call.isCleanup c = false) ∧
      (∀ k, sdk k = false → body.length ≤ k + 1) := by
  unfold mainBody at h
  by_cases s0 : sdk 0 = true
  swap
  · simp only [s0, Bool.not_false, if_true, Option.some.injEq, Prod.mk.injEq,
      Bool.not_eq_true] at h s0
    obtain ⟨rfl, rfl⟩ := h
    exact ⟨rfl, by simp [Call.isCleanup], fun k _ => by simp⟩
  by_cases s1 : sdk 1 = true
  swap
  · simp only [s0, s1, Bool.not_true, Bool.not_false, Bool.false_eq_true, if_false, if_true,
      Option.some.injEq, Prod.mk.injEq] at h
    obtain ⟨rfl, rfl⟩ := h
    refine ⟨rfl, by simp [Call.isCleanup], fun k hk => ?_⟩
    have : k ≠ 0 := fun e0 => by rw [e0, s0] at hk; exact absurd hk (by decide)
    simp; omega
  by_cases s2 : sdk 2 = true
  swap
  · simp only [s0, s1, s2, Bool.not_true, Bool.not_false, Bool.false_eq_true, if_false, if_true,
      Option.some.injEq, Prod.mk.injEq] at h
    obtain ⟨rfl, rfl⟩ := h
    refine ⟨rfl, by simp [Call.isCleanup], fun k hk => ?_⟩
    have : k ≠ 0 := fun e0 => by rw [e0, s0] at hk; exact absurd hk (by decide)
    have : k ≠ 1 := fun e0 => by rw [e0, s1] at hk; exact absurd hk (by decide)
    simp; omega
  simp only [s0, s1, s2, Bool.not_true, Bool.false_eq_true, if_false] at h
  have k012 : ∀ k, sdk k = false → 3 ≤ k := by
    intro k hk
    have : k ≠ 0 := fun e0 => by rw [e0, s0] at hk; exact absurd hk (by decide)
    have : k ≠ 1 := fun e0 => by rw [e0, s1] at hk; exact absurd hk (by decide)
    have : k ≠ 2 := fun e0 => by rw [e0, s2] at hk; exact absurd hk (by decide)
    omega
  cases cfg with
  | none =>
    by_cases s3 : sdk 3 = true
    swap
    · simp only [s3, true_and, if_true, Option.some.injEq, Prod.mk.injEq,
        Bool.not_eq_true] at h s3
      obtain ⟨rfl, rfl⟩ := h
      exact ⟨rfl, by simp [Call.isCleanup], fun k hk => by have := k012 k hk; simp; omega⟩
    simp only [s3, Bool.true_eq_false, and_false, if_false, if_true, List.length_append,
      List.length_cons, List.length_nil] at h
    by_cases s4 : sdk 4 = true
    swap
    · simp only [s4, Bool.not_false, if_true, Option.some.injEq, Prod.mk.injEq,
        Bool.not_eq_true] at h s4
      obtain ⟨rfl, rfl⟩ := h
      refine ⟨rfl, by simp [Call.isCleanup], fun k hk => ?_⟩
      have := k012 k hk
      have : k ≠ 3 := fun e0 => by rw [e0, s3] at hk; exact absurd hk (by decide)
      simp; omega
    by_cases s5 : sdk 5 = true
    swap
    · simp only [s4, s5, Bool.not_true, Bool.not_false, Bool.false_eq_true, if_false, if_true,
        Option.some.injEq, Prod.mk.injEq] at h
      obtain ⟨rfl, rfl⟩ := h
      refine ⟨rfl, by simp [Call.isCleanup], fun k hk => ?_⟩
      have := k012 k hk
      have : k ≠ 3 := fun e0 => by rw [e0, s3] at hk; exact absurd hk (by decide)
      have : k ≠ 4 := fun e0 => by rw [e0, s4] at hk; exact absurd hk (by decide)
      simp; omega
    by_cases s6 : sdk 6 = true
    swap
    · simp only [s4, s5, s6, Bool.not_true, Bool.not_false, Bool.false_eq_true, if_false,
        if_true, Option.some.injEq, Prod.mk.injEq] at h
      obtain ⟨rfl, rfl⟩ := h
      refine ⟨rfl, by simp [Call.isCleanup], fun k hk => ?_⟩
      have := k012 k hk
      have : k ≠ 3 := fun e0 => by rw [e0, s3] at hk; exact absurd hk (by decide)
      have : k ≠ 4 := fun e0 => by rw [e0, s4] at hk; exact absurd hk (by decide)
      have : k ≠ 5 := fun e0 => by rw [e0, s5] at hk; exact absurd hk (by decide)
      simp; omega
    by_cases s7 : sdk 7 = true
    swap
    · simp only [s4, s5, s6, s7, Bool.not_true, Bool.not_false, Bool.false_eq_true, if_false,
        if_true, Option.some.injEq, Prod.mk.injEq] at h
      obtain ⟨rfl, rfl⟩ := h
      refine ⟨rfl, by simp [Call.isCleanup], fun k hk => ?_⟩
      have := k012 k hk
      have : k ≠ 3 := fun e0 => by rw [e0, s3] at hk; exact absurd hk (by decide)
      have : k ≠ 4 := fun e0 => by rw [e0, s4] at hk; exact absurd hk (by decide)
      have : k ≠ 5 := fun e0 => by rw [e0, s5] at hk; exact absurd hk (by decide)
      have : k ≠ 6 := fun e0 => by rw [e0, s6] at hk; exact absurd hk (by decide)
      simp; omega
    simp only [s4, s5, s6, s7, Bool.not_true, Bool.false_eq_true, if_false] at h
    split at h
    · exact absurd h (by simp)
    · next out hloop =>
      simp only [Option.some.injEq, Prod.mk.injEq] at h
      obtain ⟨rfl, rfl⟩ := h
      obtain ⟨⟨more, hm, hcl⟩, hk⟩ := copyLoop_shape sdk _ _ _ _ _ hloop
      refine ⟨by rw [hm]; rfl, ?_, ?_⟩
      · intro c hc
        rw [hm] at hc
        rcases List.mem_append.mp hc with hc1 | hc1
        · exact (show ∀ c ∈ _, Call.isCleanup c = false by simp [Call.isCleanup]) c hc1
        · exact hcl c hc1
      · intro k hkf
        have := k012 k hkf
        have : k ≠ 3 := fun e0 => by rw [e0, s3] at hkf; exact absurd hkf (by decide)
        have : k ≠ 4 := fun e0 => by rw [e0, s4] at hkf; exact absurd hkf (by decide)
        have : k ≠ 5 := fun e0 => by rw [e0, s5] at hkf; exact absurd hkf (by decide)
        have : k ≠ 6 := fun e0 => by rw [e0, s6] at hkf; exact absurd hkf (by decide)
        have : k ≠ 7 := fun e0 => by rw [e0, s7] at hkf; exact absurd hkf (by decide)
        exact hk k hkf (by simp; omega)
  | some c =>
    simp only [reduceCtorEq, false_and, if_false, List.length_cons, List.length_nil] at h
    by_cases s3 : sdk 3 = true
    swap
    · simp only [s3, Bool.not_false, if_true, Option.some.injEq, Prod.mk.injEq,
        Bool.not_eq_true] at h s3
      obtain ⟨rfl, rfl⟩ := h
      exact ⟨rfl, by simp [Call.isCleanup], fun k hk => by have := k012 k hk; simp; omega⟩
    by_cases s4 : sdk 4 = true
    swap
    · simp only [s3, s4, Bool.not_true, Bool.not_false, Bool.false_eq_true, if_false, if_true,
        Option.some.injEq, Prod.mk.injEq] at h
      obtain ⟨rfl, rfl⟩ := h
      refine ⟨rfl, by simp [Call.isCleanup], fun k hk => ?_⟩
      have := k012 k hk
      have : k ≠ 3 := fun e0 => by rw [e0, s3] at hk; exact absurd hk (by decide)
      simp; omega
    by_cases s5 : sdk 5 = true
    swap
    · simp only [s3, s4, s5, Bool.not_true, Bool.not_false, Bool.false_eq_true, if_false,
        if_true, Option.some.injEq, Prod.mk.injEq] at h
      obtain ⟨rfl, rfl⟩ := h
      refine ⟨rfl, by simp [Call.isCleanup], fun k hk => ?_⟩
      have := k012 k hk
      have : k ≠ 3 := fun e0 => by rw [e0, s3] at hk; exact absurd hk (by decide)
      have : k ≠ 4 := fun e0 => by rw [e0, s4] at hk; exact absurd hk (by decide)
      simp; omega
    by_cases s6 : sdk 6 = true
    swap
    · simp only [s3, s4, s5, s6, Bool.not_true, Bool.not_false, Bool.false_eq_true, if_false,
        if_true, Option.some.injEq, Prod.mk.injEq] at h
      obtain ⟨rfl, rfl⟩ := h
      refine ⟨rfl, by simp [Call.isCleanup], fun k hk => ?_⟩
      have := k012 k hk
      have : k ≠ 3 := fun e0 => by rw [e0, s3] at hk; exact absurd hk (by decide)
      have : k ≠ 4 := fun e0 => by rw [e0, s4] at hk; exact absurd hk (by decide)
      have : k ≠ 5 := fun e0 => by rw [e0, s5] at hk; exact absurd hk (by decide)
      simp; omega
    simp only [s3, s4, s5, s6, Bool.not_true, Bool.false_eq_true, if_false] at h
    split at h
    · exact absurd h (by simp)
    · next out hloop =>
      simp only [Option.some.injEq, Prod.mk.injEq] at h
      obtain ⟨rfl, rfl⟩ := h
      obtain ⟨⟨more, hm, hcl⟩, hk⟩ := copyLoop_shape sdk _ _ _ _ _ hloop
      refine ⟨by rw [hm]; rfl, ?_, ?_⟩
      · intro c hc
        rw [hm] at hc
        rcases List.mem_append.mp hc with hc1 | hc1
        · exact (show ∀ c ∈ _, Call.isCleanup c = false by simp [Call.isCleanup]) c hc1
        · exact hcl c hc1
      · intro k hkf
        have := k012 k hkf
        have : k ≠ 3 := fun e0 => by rw [e0, s3] at hkf; exact absurd hkf (by decide)
        have : k ≠ 4 := fun e0 => by rw [e0, s4] at hkf; exact absurd hkf (by decide)
        have : k ≠ 5 := fun e0 => by rw [e0, s5] at hkf; exact absurd hkf (by decide)
        have : k ≠ 6 := fun e0 => by rw [e0, s6] at hkf; exact absurd hkf (by decide)
        exact hk k hkf (by simp; omega)

/-- A run of `main` that makes any call consists of the calls before `_EXIT` and the
cleanup; the calls before `_EXIT` start with the creation of the reading context, hold no
cleanup call, and stop with the first failed call. -/
theorem main_shape (argv : List (List Nat)) (sdk : Nat → Bool) (N fuel : Nat)
    (calls : List Call) (h : main argv sdk N fuel = some calls) :
    calls = [] ∨ ∃ body b, calls = body ++ mainExit b ∧
      body.head? = some (Call.CreateStreamContext Context.readingContext) ∧
      (∀ c ∈ body, Call.isCleanup c = false) ∧
      (∀ k, sdk k = false → body.length ≤ k + 1) := by
  unfold main at h
  by_cases h3 : argv.length < 3
  · rw [if_pos h3] at h
    simp only [Option.some.injEq] at h
    exact Or.inl h.symm
  · rw [if_neg h3] at h
    simp only at h
    split_ifs at h
    all_goals first
      | (simp only [Option.some.injEq] at h
         exact Or.inl h.symm)
      | (split at h
         · exact absurd h (by simp)
         · next body b hb =>
           simp only [Option.some.injEq] at h
           exact Or.inr ⟨body, b, h.symm, mainBody_shape _ _ _ _ _ _ _ _ _ hb⟩)

/-- The cleanup destroys each of the two contexts once. -/
theorem mainExit_destroys (b : Bool) (c : Context) :
    (mainExit b).count (Call.DestroyStreamContext c) = 1 := by
  cases b <;> cases c <;> decide

/-- Every run of `main` that makes any call destroys each of the two stream contexts
exactly once, after all the calls before `_EXIT`. -/
theorem main_destroys_once (argv : List (List Nat)) (sdk : Nat → Bool) (N fuel : Nat)
    (calls : List Call) (h : main argv sdk N fuel = some calls) (hne : calls ≠ [])
    (c : Context) : calls.count (Call.DestroyStreamContext c) = 1 := by
  rcases main_shape argv sdk N fuel calls h with h0 | ⟨body, b, hcalls, _, hclean, _⟩
  · exact absurd h0 hne
  · have hnot : Call.DestroyStreamContext c ∉ body := by
      intro hm
      have := hclean _ hm
      simp [Call.isCleanup] at this
    rw [hcalls, List.count_append, List.count_eq_zero_of_not_mem hnot, mainExit_destroys]

/-- C15 (the code departs from the claim): when the first `ladybugCreateStreamContext`
fails, the run jumps to `_EXIT` and calls `ladybugStopStream` and
`ladybugDestroyStreamContext` on the writing context, which no call has created, and on
the reading context, whose creation has failed; when the second one fails, the cleanup
still stops and destroys the writing context. -/
theorem main_cleanup_without_context (N fuel : Nat) :
    main [str "ladybugStreamCopy", str "src", str "dst"] (fun k => decide (k ≠ 0)) N fuel
        = some [Call.CreateStreamContext Context.readingContext,
            Call.StopStream Context.writingContext, Call.StopStream Context.readingContext,
            Call.DestroyStreamContext Context.readingContext,
            Call.DestroyStreamContext Context.writingContext] ∧
      main [str "ladybugStreamCopy", str "src", str "dst"] (fun k => decide (k ≠ 1)) N fuel
        = some [Call.CreateStreamContext Context.readingContext,
            Call.CreateStreamContext Context.writingContext,
            Call.StopStream Context.writingContext, Call.StopStream Context.readingContext,
            Call.DestroyStreamContext Context.readingContext,
            Call.DestroyStreamContext Context.writingContext] := by
  constructor <;> simp [main, mainBody, mainExit]
/-! ## Theorems: what the programs do after a failed call -/

end Ladybug
